import Mathlib

/-!
Verification development for the runtime core of the Balala 3D engine:
a generational-handle object pool, a hierarchical scene graph with
transform composition, and a renderer traversal that issues draw calls.

Scalars are modelled as rationals (idealising `f32` arithmetic), 4x4
homogeneous matrices as `Matrix (Fin 4) (Fin 4) ℚ`.  External `nalgebra`
constructors whose definitions involve transcendental functions
(axis-angle rotation matrices, `look_at_rh`, `new_perspective`,
`to_radians`) are collaborator primitives passed in as a `Prims` record;
the zero-axis special case of `Rotation3::new` (identity for a zero
axis-angle vector) is reproduced explicitly since the engine relies on it.
-/

namespace Balala

/-- 4x4 homogeneous transform matrix over the rational scalar model. -/
abbrev M4 : Type := Matrix (Fin 4) (Fin 4) ℚ

instance : DecidableEq M4 := fun A B =>
  decidable_of_iff (∀ i j, A i j = B i j)
    ⟨fun h => by funext i j; exact h i j, fun h i j => by rw [h]⟩

/-- A 3-component vector (`nalgebra::Vector3<f32>`). -/
structure V3 where
  x : ℚ
  y : ℚ
  z : ℚ
deriving DecidableEq

def V3.zero : V3 := ⟨0, 0, 0⟩

def V3.add (a b : V3) : V3 := ⟨a.x + b.x, a.y + b.y, a.z + b.z⟩

instance : Add V3 := ⟨V3.add⟩

/-- A quaternion with components (i, j, k, w) as stored by `nalgebra`;
unit quaternions represent rotations. -/
structure QuatM where
  i : ℚ
  j : ℚ
  k : ℚ
  w : ℚ
deriving DecidableEq

/-- The identity rotation quaternion `UnitQuaternion::identity()`. -/
def QuatM.id : QuatM := ⟨0, 0, 0, 1⟩

/-- Homogeneous rotation matrix of a unit quaternion
(`UnitQuaternion::to_homogeneous`), using the polynomial
quaternion-to-rotation-matrix formula of `nalgebra`. -/
def quatHom (q : QuatM) : M4 :=
  let ww := q.w * q.w
  let ii := q.i * q.i
  let jj := q.j * q.j
  let kk := q.k * q.k
  let ij := q.i * q.j * 2
  let wk := q.w * q.k * 2
  let wj := q.w * q.j * 2
  let ik := q.i * q.k * 2
  let jk := q.j * q.k * 2
  let wi := q.w * q.i * 2
  !![ww + ii - jj - kk, ij - wk, wj + ik, 0;
     wk + ij, ww - ii + jj - kk, jk - wi, 0;
     ik - wj, wi + jk, ww - ii - jj + kk, 0;
     0, 0, 0, 1]

/-- Homogeneous translation matrix (`Matrix4::new_translation`). -/
def m4Translation (v : V3) : M4 :=
  !![1, 0, 0, v.x;
     0, 1, 0, v.y;
     0, 0, 1, v.z;
     0, 0, 0, 1]

/-- Homogeneous non-uniform scaling matrix
(`Matrix4::new_nonuniform_scaling`). -/
def m4Scaling (v : V3) : M4 :=
  !![v.x, 0, 0, 0;
     0, v.y, 0, 0;
     0, 0, v.z, 0;
     0, 0, 0, 1]

/-- Collaborator primitives: `nalgebra` constructions whose entries are
transcendental functions of their inputs.  The engine's claims do not
depend on the entries these produce, only on how the engine composes
them, so they are parameters of the model. -/
structure Prims where
  rotFromScaledAxis : V3 → M4
  lookAtRh : V3 → V3 → V3 → M4
  perspective : ℚ → ℚ → ℚ → ℚ → M4
  toRadians : ℚ → ℚ

/-- Trivial instantiation of the collaborator primitives, used to
evaluate the model on concrete scenes. -/
def trivPrims : Prims :=
  { rotFromScaledAxis := fun _ => 1
    lookAtRh := fun _ _ _ => 1
    perspective := fun _ _ _ _ => 1
    toRadians := fun _ => 0 }

/-- Rotation matrix from an axis-angle vector: both
`Matrix4::new_rotation` and `Matrix4::from_scaled_axis` build
`Rotation3::new(axisangle).to_homogeneous()`, which is the identity when
the axis-angle vector is zero and a Rodrigues rotation otherwise. -/
def m4Rotation (P : Prims) (v : V3) : M4 :=
  if v = V3.zero then 1 else P.rotFromScaledAxis v

/-- Matrix inversion as `nalgebra::Matrix4::try_inverse`: `none` for a
singular matrix, otherwise the inverse (computed here through the
adjugate). -/
def tryInverse (m : M4) : Option M4 :=
  if m.det = 0 then none else some (m.det⁻¹ • m.adjugate)

theorem tryInverse_one : tryInverse (1 : M4) = some 1 := by
  simp [tryInverse, Matrix.det_one, Matrix.adjugate_one]

theorem tryInverse_mul_left {m mi : M4} (h : tryInverse m = some mi) :
    mi * m = 1 := by
  unfold tryInverse at h
  by_cases hd : m.det = 0
  · simp [hd] at h
  · simp only [hd, if_false, Option.some.injEq] at h
    subst h
    rw [Matrix.smul_mul, Matrix.adjugate_mul, smul_smul,
      inv_mul_cancel₀ hd, one_smul]

/-! ## Generational pool

The pool source file (`src/utils/pool.rs`) is not part of the repository
snapshot; only its callers are.  The definitions below are therefore
modelled from the specification of the generational pool. -/

/-- Modelled from the spec: `Handle<T>` from the missing
`src/utils/pool.rs` — an opaque reference `(index, generation)`; equality
requires both fields to match; the "none" sentinel carries a reserved
invalid index (`u32::MAX` in the 32-bit machine representation). -/
structure HandleM where
  index : Nat
  generation : Nat
deriving DecidableEq

/-- The reserved invalid slot index of the none sentinel. -/
def HandleM.noneIndex : Nat := 4294967295

/-- The none sentinel handle, `Handle::none()`. -/
def HandleM.none : HandleM := ⟨HandleM.noneIndex, 0⟩

/-- Modelled from the spec: a pool slot from the missing
`src/utils/pool.rs` — either `Occupied(payload, generation)` or
`Free(generation, next_free_index)`, the free slots forming a
singly-linked list. -/
inductive SlotM (α : Type) where
  | occupied (generation : Nat) (payload : α)
  | free (generation : Nat) (nextFree : Option Nat)

/-- Generation stored in a slot. -/
def SlotM.gen : SlotM α → Nat
  | .occupied g _ => g
  | .free g _ => g

/-- Modelled from the spec: `Pool<T>` from the missing
`src/utils/pool.rs` — an ordered sequence of slots plus the head of the
LIFO free list. -/
structure PoolM (α : Type) where
  slots : List (SlotM α)
  freeHead : Option Nat

/-- `Pool::new()`: empty slot sequence, empty free list. -/
def PoolM.new : PoolM α := ⟨[], Option.none⟩

/-- Modelled from the spec: `spawn` reuses the most recently freed slot
(incrementing its generation) or appends a new slot with generation 0,
returning a handle at the slot's current generation. -/
def PoolM.spawn (p : PoolM α) (v : α) : HandleM × PoolM α :=
  match p.freeHead with
  | some i =>
    match p.slots[i]? with
    | some (.free g next) =>
      (⟨i, g + 1⟩, ⟨p.slots.set i (.occupied (g + 1) v), next⟩)
    | _ => (⟨p.slots.length, 0⟩, ⟨p.slots ++ [.occupied 0 v], p.freeHead⟩)
  | _ => (⟨p.slots.length, 0⟩, ⟨p.slots ++ [.occupied 0 v], p.freeHead⟩)

/-- Modelled from the spec: `borrow`/`borrow_mut` resolve only an
occupied slot whose stored generation equals the handle's generation;
out-of-range, freed or stale handles yield `none`. -/
def PoolM.borrow (p : PoolM α) (h : HandleM) : Option α :=
  match p.slots[h.index]? with
  | some (.occupied g v) => if g = h.generation then some v else Option.none
  | _ => Option.none

/-- Modelled from the spec: `free(handle)` is a no-op on a stale or
already-free handle; otherwise it clears the payload, bumps the
generation, and pushes the index onto the free list. -/
def PoolM.free (p : PoolM α) (h : HandleM) : PoolM α :=
  match p.slots[h.index]? with
  | some (.occupied g _) =>
    if g = h.generation then
      ⟨p.slots.set h.index (.free (g + 1) p.freeHead), some h.index⟩
    else p
  | _ => p

/-- Modelled from the spec: `at(index)` — direct slot access by raw
index independent of generations. -/
def PoolM.at' (p : PoolM α) (i : Nat) : Option α :=
  match p.slots[i]? with
  | some (.occupied _ v) => some v
  | _ => Option.none

/-- `capacity()`: current slot count including free slots. -/
def PoolM.capacity (p : PoolM α) : Nat := p.slots.length

/-- In-place mutation through `borrow_mut`: apply `f` to the payload the
handle resolves to; no-op when the handle does not resolve. -/
def PoolM.modify (p : PoolM α) (h : HandleM) (f : α → α) : PoolM α :=
  match p.slots[h.index]? with
  | some (.occupied g v) =>
    if g = h.generation then
      ⟨p.slots.set h.index (.occupied g (f v)), p.freeHead⟩
    else p
  | _ => p

/-- Generation currently stored at a slot index, if the slot exists. -/
def PoolM.genAt (p : PoolM α) (i : Nat) : Option Nat :=
  (p.slots[i]?).map SlotM.gen

/-- A spawn or free call, for reasoning about arbitrary operation
sequences on a pool. -/
inductive PoolOp (α : Type) where
  | spawn (v : α)
  | free (h : HandleM)

def PoolM.applyOp (p : PoolM α) : PoolOp α → PoolM α
  | .spawn v => (p.spawn v).2
  | .free h => p.free h

def PoolM.applyOps (p : PoolM α) : List (PoolOp α) → PoolM α
  | [] => p
  | op :: ops => (p.applyOp op).applyOps ops

/-! ## Scene graph nodes (`src/scene/node.rs`) -/

/-- A viewport rectangle (`math::rect::Rect`). -/
structure RectM where
  rx : ℚ
  ry : ℚ
  rwidth : ℚ
  rheight : ℚ

/-- `Light` payload. -/
structure LightM where
  radius : ℚ
  color : V3

def LightM.default : LightM := ⟨10, ⟨1, 1, 1⟩⟩

/-- `Camera` payload: projection parameters plus the cached view and
projection matrices recomputed each frame. -/
structure CameraM where
  fov : ℚ
  z_near : ℚ
  z_far : ℚ
  viewport : RectM
  view_matrix : M4
  projection_matrix : M4

/-- `Camera::calculate_matrices`: view from `look_at_rh(pos, pos + look,
up)`, projection from `new_perspective(aspect, fov.to_radians(), z_near,
z_far)`. -/
def CameraM.calculate_matrices (P : Prims) (c : CameraM)
    (pos look up : V3) (aspect : ℚ) : CameraM :=
  { c with
    view_matrix := P.lookAtRh pos (pos + look) up
    projection_matrix := P.perspective aspect (P.toRadians c.fov) c.z_near c.z_far }

/-- `Camera::get_view_projection_matrix`: `projection_matrix * view_matrix`. -/
def CameraM.get_view_projection_matrix (c : CameraM) : M4 :=
  c.projection_matrix * c.view_matrix

/-- A drawable surface; its shared geometry payload and optional texture
are identified by an id (geometry upload is GPU-side and out of the
model). -/
structure SurfaceM where
  data : Nat
  texture : Option Nat

/-- `Mesh` payload: the surfaces the mesh owns. -/
structure MeshM where
  surfaces : List SurfaceM

/-- `NodeKind`: the tagged node payload variant.  The `Custom` variant's
`Box<dyn Any>` payload is opaque and carries no modelled data. -/
inductive NodeKindM where
  | base
  | light (l : LightM)
  | camera (c : CameraM)
  | mesh (m : MeshM)
  | custom

/-- `Node`: name, payload, decomposed local-transform fields, the cached
composed matrices, and the parent/children linkage handles. -/
structure NodeM where
  name : String
  kind : NodeKindM
  local_scale : V3
  local_position : V3
  local_rotation : QuatM
  pre_rotation : QuatM
  post_rotation : QuatM
  rotation_offset : V3
  rotation_pivot : V3
  scaling_offset : V3
  scaling_pivot : V3
  parent : HandleM
  children : List HandleM
  local_transform : M4
  global_transform : M4

/-- `Node::new(kind)`. -/
def NodeM.new (kind : NodeKindM) : NodeM :=
  { name := "Node"
    kind := kind
    local_scale := ⟨1, 1, 1⟩
    local_position := V3.zero
    local_rotation := QuatM.id
    pre_rotation := QuatM.id
    post_rotation := QuatM.id
    rotation_offset := V3.zero
    rotation_pivot := V3.zero
    scaling_offset := V3.zero
    scaling_pivot := V3.zero
    parent := HandleM.none
    children := []
    local_transform := 1
    global_transform := 1 }

/-- `Node::calculate_local_transform`: recomputes `local_transform` as
`translation * rotation_offset * rotation_pivot * pre_rotation *
rotation * post_rotation⁻¹ * rotation_pivot⁻¹ * scale_offset *
scale_pivot * scale * scale_pivot⁻¹`.  Each `try_inverse().unwrap()` of
the source is a `none` (panic) case here, in source order: the
post-rotation inverse first, then the rotation-pivot inverse, then the
scaling-pivot inverse. -/
def NodeM.calculate_local_transform (P : Prims) (n : NodeM) : Option NodeM :=
  match tryInverse (quatHom n.post_rotation) with
  | Option.none => Option.none
  | some post_rotation_inv =>
  match tryInverse (m4Rotation P n.rotation_pivot) with
  | Option.none => Option.none
  | some rotation_pivot_inv =>
  match tryInverse (m4Rotation P n.scaling_pivot) with
  | Option.none => Option.none
  | some scale_pivot_inv =>
    some { n with local_transform :=
      (m4Translation n.local_position
        * m4Rotation P n.rotation_offset
        * m4Rotation P n.rotation_pivot
        * quatHom n.pre_rotation
        * quatHom n.local_rotation
        * post_rotation_inv
        * rotation_pivot_inv
        * m4Rotation P n.scaling_offset
        * m4Rotation P n.scaling_pivot
        * m4Scaling n.local_scale
        * scale_pivot_inv) }

/-- Column `j` of a matrix as a 3-vector: `get_global_position` reads
column 3, `get_look_vector` column 2, `get_up_vector` column 1 of
`global_transform` (flat indices 12–14, 8–10, 4–6 in the column-major
source). -/
def v3OfCol (m : M4) (j : Fin 4) : V3 := ⟨m 0 j, m 1 j, m 2 j⟩

def NodeM.get_global_position (n : NodeM) : V3 := v3OfCol n.global_transform 3

def NodeM.get_look_vector (n : NodeM) : V3 := v3OfCol n.global_transform 2

def NodeM.get_up_vector (n : NodeM) : V3 := v3OfCol n.global_transform 1

/-! ## Scene (`src/scene/mod.rs`)

The scene owns the node pool and the designated root.  The traversal
scratch stack of the source is a per-call loop argument here. -/

structure SceneM where
  nodes : PoolM NodeM
  root : HandleM

/-- `Scene::new()`: a fresh pool whose only node is the root. -/
def SceneM.new : SceneM :=
  let s := (PoolM.new).spawn (NodeM.new .base)
  ⟨s.2, s.1⟩

def SceneM.borrow_node (s : SceneM) (h : HandleM) : Option NodeM :=
  s.nodes.borrow h

/-- Remove the first occurrence of `h` (handle equality) from a children
list, as `children.iter().position(|h| h == node_handle)` followed by
`remove(i)`. -/
def removeFirst (h : HandleM) : List HandleM → List HandleM
  | [] => []
  | x :: xs => if x = h then xs else x :: removeFirst h xs

/-- `Scene::unlink_node`: read and clear the node's parent handle, then
remove the node from that parent's children list (first identity match
only); each step silently no-ops when its handle does not resolve. -/
def SceneM.unlink_node (s : SceneM) (node_handle : HandleM) : SceneM :=
  let parent_handle : HandleM :=
    match s.nodes.borrow node_handle with
    | some n => n.parent
    | Option.none => HandleM.none
  let s1 : SceneM :=
    { s with nodes := (s.nodes.modify node_handle
        (fun n => { n with parent := HandleM.none })) }
  { s1 with nodes := (s1.nodes.modify parent_handle
      (fun n => { n with children := removeFirst node_handle n.children })) }

/-- `Scene::link_nodes`: unlink the child, then (if the child handle
resolves) set its parent field, then (if the parent handle resolves)
append the child to the parent's children list. -/
def SceneM.link_nodes (s : SceneM) (child_handle parent_handle : HandleM) : SceneM :=
  let s1 := s.unlink_node child_handle
  match s1.nodes.borrow child_handle with
  | Option.none => s1
  | some _ =>
    let s2 : SceneM :=
      { s1 with nodes := (s1.nodes.modify child_handle
          (fun n => { n with parent := parent_handle })) }
    match s2.nodes.borrow parent_handle with
    | Option.none => s2
    | some _ =>
      { s2 with nodes := (s2.nodes.modify parent_handle
          (fun n => { n with children := n.children ++ [child_handle] })) }

/-- `Scene::add_node`: spawn into the pool, link as child of root. -/
def SceneM.add_node (s : SceneM) (node : NodeM) : HandleM × SceneM :=
  let r := s.nodes.spawn node
  (r.1, SceneM.link_nodes { s with nodes := r.2 } r.1 s.root)

/-- `Scene::remove_node`: frees the pool slot and nothing else. -/
def SceneM.remove_node (s : SceneM) (handle : HandleM) : SceneM :=
  { s with nodes := s.nodes.free handle }

/-- The parent's local transform as `Scene::update` reads it after
writing the freshly recomputed node back: borrow the parent handle from
the updated pool and take its `local_transform`, or the identity when
the parent handle does not resolve (the root's `Handle::none()` parent
in particular). -/
def parentLocalAfter (s : SceneM) (handle : HandleM) (node' : NodeM) : M4 :=
  match (s.nodes.modify handle (fun _ => node')).borrow node'.parent with
  | some p => p.local_transform
  | Option.none => 1

/-- The camera branch at the end of the `Scene::update` body: a camera
node gets its view/projection matrices recomputed from the global
position/look/up vectors just derived from the new `global_transform`;
any other node is untouched. -/
def camAdjust (P : Prims) (aspect : ℚ) (m : NodeM) : NodeM :=
  match m.kind with
  | .camera c =>
    { m with kind := .camera (c.calculate_matrices P
        m.get_global_position m.get_look_vector m.get_up_vector aspect) }
  | _ => m

/-- One iteration of the `Scene::update` traversal loop for a popped
handle: recompute the node's local transform (a `none` result models the
`unwrap` panic inside `calculate_local_transform`), read the parent's
local transform from the updated pool (identity when the parent handle
does not resolve), set `global_transform = local_transform *
parent_local_transform`, recompute camera matrices from the new global
transform, and return the children to push.  A handle that does not
resolve is skipped entirely and pushes nothing. -/
def updateStep (P : Prims) (aspect : ℚ) (s : SceneM) (handle : HandleM) :
    Option (SceneM × List HandleM) :=
  match s.nodes.borrow handle with
  | Option.none => some (s, [])
  | some node =>
    match node.calculate_local_transform P with
    | Option.none => Option.none
    | some node' =>
      let node2 : NodeM := { node' with global_transform :=
        (node'.local_transform * parentLocalAfter s handle node') }
      some ({ s with nodes := (s.nodes.modify handle
          (fun _ => camAdjust P aspect node2)) },
        node2.children.reverse)

/-- Outcome of running the update traversal loop with a fuel bound:
`done` when the stack empties, `panic` when a matrix inversion inside
`calculate_local_transform` fails, `fuelOut` when the fuel is exhausted
with work remaining (the source loop would still be running). -/
inductive LoopOut where
  | done (s : SceneM)
  | panic
  | fuelOut

/-- The explicit-stack loop of `Scene::update`: pop a handle (head of
the list), run `updateStep`, push the children (in reverse, matching the
LIFO `Vec`) and continue. -/
def updLoop (P : Prims) (aspect : ℚ) : Nat → SceneM → List HandleM → LoopOut
  | 0, s, stack => match stack with | [] => .done s | _ => .fuelOut
  | fuel + 1, s, stack =>
    match stack with
    | [] => .done s
    | h :: rest =>
      match updateStep P aspect s h with
      | Option.none => .panic
      | some (s', pushed) => updLoop P aspect fuel s' (pushed ++ rest)

/-- `Scene::update(aspect_ratio)`: run the traversal loop with the stack
seeded with the root. -/
def SceneM.update (P : Prims) (aspect : ℚ) (fuel : Nat) (s : SceneM) : LoopOut :=
  updLoop P aspect fuel s [s.root]

/-- A sequence of completed `update` calls, each with its own fuel and
aspect ratio; `none` when any of them fails to complete. -/
def runUpdates (P : Prims) : List (Nat × ℚ) → SceneM → Option SceneM
  | [], s => some s
  | (fuel, aspect) :: rest, s =>
    match SceneM.update P aspect fuel s with
    | .done s' => runUpdates P rest s'
    | _ => Option.none

/-! ## Renderer traversal (`src/renderer/renderer.rs`)

GPU calls (viewport, program binding, uniform upload, surface draw) are
recorded as draw-call events rather than issued; everything that
determines them (bucket classification order, per-camera iteration, the
uploaded matrix and the surfaces drawn under it) is modelled. -/

/-- One mesh visit inside a camera pass: the uniform uploaded before the
mesh's surfaces are drawn, and the number of surface draw calls then
issued. -/
structure DrawCall where
  cam : HandleM
  meshHandle : HandleM
  mvp : M4
  surfaceDraws : Nat

/-- The classification traversal of `Renderer::render`: pop a handle,
classify the node into the cameras/lights/meshes buckets by payload
variant (appending preserves discovery order), push its children; a
handle that does not resolve is skipped. -/
def collectLoop (s : SceneM) :
    Nat → List HandleM → List HandleM × List HandleM × List HandleM →
    List HandleM × List HandleM × List HandleM
  | 0, _, acc => acc
  | _ + 1, [], acc => acc
  | fuel + 1, h :: rest, (cameras, lights, meshes) =>
    match s.nodes.borrow h with
    | Option.none => collectLoop s fuel rest (cameras, lights, meshes)
    | some node =>
      let acc' :=
        match node.kind with
        | .mesh _ => (cameras, lights, meshes ++ [h])
        | .light _ => (cameras, lights ++ [h], meshes)
        | .camera _ => (cameras ++ [h], lights, meshes)
        | _ => (cameras, lights, meshes)
      collectLoop s fuel (node.children.reverse ++ rest) acc'

/-- Number of surfaces drawn for a node's payload: one draw per surface
of a mesh, none otherwise. -/
def surfaceDrawsOf : NodeKindM → Nat
  | .mesh m => m.surfaces.length
  | _ => 0

/-- The drawing phase of `Renderer::render` for one scene: for each
camera bucket entry (in order), compute `view_projection =
projection_matrix * view_matrix`, then for each mesh bucket entry (in
order) upload `view_projection * global_transform` and draw every
surface the mesh owns. -/
def drawPhase (s : SceneM) (cameras meshes : List HandleM) : List DrawCall :=
  cameras.flatMap fun camera_handle =>
    match s.nodes.borrow camera_handle with
    | some camera_node =>
      match camera_node.kind with
      | .camera camera =>
        meshes.flatMap fun mesh_handle =>
          match s.nodes.borrow mesh_handle with
          | some node =>
            [⟨camera_handle, mesh_handle,
              camera.get_view_projection_matrix * node.global_transform,
              surfaceDrawsOf node.kind⟩]
          | Option.none => []
      | _ => []
    | Option.none => []

/-- Per-scene body of `Renderer::render`: classify from the root, then
run every camera over every mesh. -/
def renderScene (s : SceneM) (fuel : Nat) : List DrawCall :=
  let b := collectLoop s fuel [s.root] ([], [], [])
  drawPhase s b.1 b.2.2

/-- `Renderer::render` over the registered scenes, one draw list per
scene (the scratch buckets are cleared between scenes). -/
def renderAll (scenes : List SceneM) (fuel : Nat) : List (List DrawCall) :=
  scenes.map (fun s => renderScene s fuel)

/-! ## Resources and the engine cache (`src/resource`, `src/engine/mod.rs`)

`Rc<RefCell<Resource>>` sharing is modelled by tagging each cache entry
with the arena id it was created under: two results are the same shared
instance exactly when they carry the same id. -/

/-- `Texture`: decoded pixel data with the lazy-upload marker. -/
structure TextureM where
  width : Nat
  height : Nat
  gpu_tex : Option Nat
  need_upload : Bool
  pixels : List Nat

/-- `ResourceKind`. -/
inductive ResourceKindM where
  | base
  | texture (t : TextureM)

/-- `Resource`: a path-keyed cache entry. -/
structure ResourceM where
  path : String
  kind : ResourceKindM

/-- The engine state needed for the resource cache: the cache list in
insertion order, each entry tagged with its identity, and the next fresh
identity. -/
structure EngineM where
  resources : List (Nat × ResourceM)
  nextRid : Nat

def EngineM.new : EngineM := ⟨[], 0⟩

/-- The cache scan inside `Engine::request_texture`: the first entry
whose path matches decides — `some (some rid)` returns the shared
instance, `some none` is the "resource invalid" early return for a
matching non-texture entry, `none` means no entry matched and loading
proceeds. -/
def findRes : List (Nat × ResourceM) → String → Option (Option Nat)
  | [], _ => Option.none
  | (rid, r) :: rest, path =>
    if r.path = path then
      match r.kind with
      | .texture _ => some (some rid)
      | _ => some Option.none
    else findRes rest path

/-- `Engine::request_texture(path)`: return the cached shared instance
when the path is already cached as a texture, fail on a cached
non-texture entry, otherwise load (the image decoder is the external
`load` collaborator), cache and return the new shared instance. -/
def EngineM.request_texture (load : String → Option TextureM)
    (e : EngineM) (path : String) : Option Nat × EngineM :=
  match findRes e.resources path with
  | some (some rid) => (some rid, e)
  | some Option.none => (Option.none, e)
  | Option.none =>
    match load path with
    | some texture =>
      (some e.nextRid,
        { resources := e.resources ++ [(e.nextRid, ⟨path, .texture texture⟩)]
          nextRid := e.nextRid + 1 })
    | Option.none => (Option.none, e)

/-! ## Basic list and pool lemmas -/

/-- Occurrence count of a handle in a children list. -/
def countH (h : HandleM) : List HandleM → Nat
  | [] => 0
  | x :: xs => (if x = h then 1 else 0) + countH h xs

theorem countH_nil (h : HandleM) : countH h [] = 0 := rfl

theorem countH_cons (h x : HandleM) (xs : List HandleM) :
    countH h (x :: xs) = (if x = h then 1 else 0) + countH h xs := rfl

theorem removeFirst_cons (h x : HandleM) (xs : List HandleM) :
    removeFirst h (x :: xs) = if x = h then xs else x :: removeFirst h xs := rfl

theorem countH_append (h : HandleM) (l l' : List HandleM) :
    countH h (l ++ l') = countH h l + countH h l' := by
  induction l with
  | nil => simp [countH_nil]
  | cons x xs ih =>
    rw [List.cons_append, countH_cons, countH_cons, ih]
    omega

theorem countH_pos_of_mem {h : HandleM} {l : List HandleM} (hm : h ∈ l) :
    0 < countH h l := by
  induction l with
  | nil => cases hm
  | cons x xs ih =>
    rw [countH_cons]
    rcases List.mem_cons.1 hm with rfl | hm'
    · rw [if_pos rfl]; omega
    · have := ih hm'; omega

theorem mem_of_countH_pos {h : HandleM} {l : List HandleM}
    (hc : 0 < countH h l) : h ∈ l := by
  induction l with
  | nil => simp [countH_nil] at hc
  | cons x xs ih =>
    by_cases hx : x = h
    · exact hx ▸ List.mem_cons_self x xs
    · rw [countH_cons, if_neg hx] at hc
      simp only [Nat.zero_add] at hc
      exact List.mem_cons_of_mem x (ih hc)

theorem countH_removeFirst (h : HandleM) (l : List HandleM) :
    countH h (removeFirst h l) = countH h l - 1 := by
  induction l with
  | nil => simp [removeFirst, countH_nil]
  | cons x xs ih =>
    rw [removeFirst_cons]
    by_cases hx : x = h
    · rw [if_pos hx, countH_cons, if_pos hx]
      omega
    · rw [if_neg hx, countH_cons, if_neg hx, ih, countH_cons, if_neg hx]
      omega

theorem removeFirst_of_not_mem {h : HandleM} {l : List HandleM}
    (hm : h ∉ l) : removeFirst h l = l := by
  induction l with
  | nil => rfl
  | cons x xs ih =>
    simp only [List.mem_cons, not_or] at hm
    have hx : ¬x = h := fun he => hm.1 he.symm
    rw [removeFirst_cons, if_neg hx, ih hm.2]

theorem getElem?_some_lt_length {l : List α} {i : Nat} {a : α}
    (h : l[i]? = some a) : i < l.length := by
  by_contra hc
  rw [List.getElem?_eq_none_iff.2 (by omega)] at h
  exact Option.noConfusion h

/-! Pool access/update lemmas. -/

theorem PoolM.modify_slots_length (p : PoolM α) (h : HandleM) (f : α → α) :
    (p.modify h f).slots.length = p.slots.length := by
  unfold PoolM.modify
  match hs : p.slots[h.index]? with
  | some (.occupied g v) =>
    by_cases hg : g = h.generation <;> simp [hs, hg, List.length_set]
  | some (.free g nx) => simp [hs]
  | Option.none => simp [hs]

theorem PoolM.modify_freeHead (p : PoolM α) (h : HandleM) (f : α → α) :
    (p.modify h f).freeHead = p.freeHead := by
  unfold PoolM.modify
  match hs : p.slots[h.index]? with
  | some (.occupied g v) =>
    by_cases hg : g = h.generation <;> simp [hs, hg]
  | some (.free g nx) => simp [hs]
  | Option.none => simp [hs]

theorem PoolM.modify_of_borrow_none {p : PoolM α} {h : HandleM} (f : α → α)
    (hb : p.borrow h = Option.none) : p.modify h f = p := by
  unfold PoolM.borrow at hb
  unfold PoolM.modify
  match hs : p.slots[h.index]? with
  | some (.occupied g v) =>
    rw [hs] at hb
    by_cases hg : g = h.generation
    · simp [hg] at hb
    · simp [hs, hg]
  | some (.free g nx) => simp [hs]
  | Option.none => simp [hs]

theorem PoolM.borrow_modify_self {p : PoolM α} {h : HandleM} {v : α} (f : α → α)
    (hb : p.borrow h = some v) : (p.modify h f).borrow h = some (f v) := by
  unfold PoolM.borrow at hb ⊢
  unfold PoolM.modify
  match hs : p.slots[h.index]? with
  | some (.occupied g w) =>
    rw [hs] at hb
    by_cases hg : g = h.generation
    · simp only [hg, if_true, Option.some.injEq] at hb
      subst hb
      have hlt : h.index < p.slots.length := getElem?_some_lt_length hs
      simp [hs, hg, List.getElem?_set_eq_of_lt _ hlt]
    · simp [hg] at hb
  | some (.free g nx) => rw [hs] at hb; exact Option.noConfusion hb
  | Option.none => rw [hs] at hb; exact Option.noConfusion hb

theorem PoolM.borrow_modify_ne {p : PoolM α} {h h' : HandleM} (f : α → α)
    (hne : h' ≠ h) : (p.modify h f).borrow h' = p.borrow h' := by
  unfold PoolM.modify
  match hs : p.slots[h.index]? with
  | some (.occupied g v) =>
    by_cases hg : g = h.generation
    · simp only [hg, if_true]
      unfold PoolM.borrow
      by_cases hi : h'.index = h.index
      · rw [hi, hs, List.getElem?_set_eq_of_lt _ (getElem?_some_lt_length hs)]
        have hgne : ¬h.generation = h'.generation := by
          intro he
          exact hne (by cases h; cases h'; simp_all)
        have hgne' : ¬g = h'.generation := by rw [hg]; exact hgne
        simp [hgne, hgne']
      · rw [List.getElem?_set_ne (by omega)]
    · simp [hg]
  | some (.free g nx) => simp [hs]
  | Option.none => simp [hs]

theorem PoolM.borrow_modify_isSome (p : PoolM α) (h h' : HandleM) (f : α → α) :
    ((p.modify h f).borrow h').isSome = (p.borrow h').isSome := by
  by_cases he : h' = h
  · subst he
    match hb : p.borrow h' with
    | some v => simp [PoolM.borrow_modify_self f hb, hb]
    | Option.none => simp [PoolM.modify_of_borrow_none f hb, hb]
  · rw [PoolM.borrow_modify_ne f he]

theorem PoolM.free_of_borrow_none {p : PoolM α} {h : HandleM}
    (hb : p.borrow h = Option.none) : p.free h = p := by
  unfold PoolM.borrow at hb
  unfold PoolM.free
  match hs : p.slots[h.index]? with
  | some (.occupied g v) =>
    rw [hs] at hb
    by_cases hg : g = h.generation
    · simp [hg] at hb
    · simp [hs, hg]
  | some (.free g nx) => simp [hs]
  | Option.none => simp [hs]

theorem PoolM.borrow_free_self {p : PoolM α} {h : HandleM} {v : α}
    (hb : p.borrow h = some v) : (p.free h).borrow h = Option.none := by
  unfold PoolM.borrow at hb ⊢
  unfold PoolM.free
  match hs : p.slots[h.index]? with
  | some (.occupied g w) =>
    rw [hs] at hb
    by_cases hg : g = h.generation
    · simp [hs, hg, List.getElem?_set_eq_of_lt _ (getElem?_some_lt_length hs)]
    · simp [hg] at hb
  | some (.free g nx) => rw [hs] at hb; exact Option.noConfusion hb
  | Option.none => rw [hs] at hb; exact Option.noConfusion hb

theorem PoolM.borrow_free_ne {p : PoolM α} {h h' : HandleM}
    (hne : h' ≠ h) : (p.free h).borrow h' = p.borrow h' := by
  unfold PoolM.free
  match hs : p.slots[h.index]? with
  | some (.occupied g v) =>
    by_cases hg : g = h.generation
    · simp only [hg, if_true]
      unfold PoolM.borrow
      by_cases hi : h'.index = h.index
      · rw [hi, hs, List.getElem?_set_eq_of_lt _ (getElem?_some_lt_length hs)]
        have hgne : g ≠ h'.generation := by
          intro he
          exact hne (by cases h; cases h'; simp_all)
        simp [hgne]
      · rw [List.getElem?_set_ne (by omega)]
    · simp [hg]
  | some (.free g nx) => simp [hs]
  | Option.none => simp [hs]

theorem PoolM.borrow_none_of_big {p : PoolM α} {h : HandleM}
    (hb : p.slots.length ≤ h.index) : p.borrow h = Option.none := by
  unfold PoolM.borrow
  rw [List.getElem?_eq_none_iff.2 hb]

/-! ## Evaluation lemmas for default transform components -/

theorem quatHom_id : quatHom QuatM.id = 1 := by
  ext i j
  fin_cases i <;> fin_cases j <;>
    norm_num [quatHom, QuatM.id, Matrix.one_apply, Matrix.vecHead,
      Matrix.vecTail, Fin.ext_iff]

theorem m4Rotation_zero (P : Prims) : m4Rotation P V3.zero = 1 := by
  rw [m4Rotation, if_pos rfl]

theorem m4Translation_zero : m4Translation V3.zero = 1 := by
  ext i j
  fin_cases i <;> fin_cases j <;>
    norm_num [m4Translation, V3.zero, Matrix.one_apply, Matrix.vecHead,
      Matrix.vecTail, Fin.ext_iff]

theorem m4Scaling_one : m4Scaling ⟨1, 1, 1⟩ = 1 := by
  ext i j
  fin_cases i <;> fin_cases j <;>
    norm_num [m4Scaling, Matrix.one_apply, Matrix.vecHead,
      Matrix.vecTail, Fin.ext_iff]

/-- The local-transform recomputation succeeds on any node whose
post-rotation is the identity quaternion and whose pivots are zero. -/
theorem calc_isSome_of_default_inv (P : Prims) (n : NodeM)
    (h1 : n.post_rotation = QuatM.id) (h2 : n.rotation_pivot = V3.zero)
    (h3 : n.scaling_pivot = V3.zero) :
    (n.calculate_local_transform P).isSome := by
  unfold NodeM.calculate_local_transform
  rw [h1, h2, h3, quatHom_id, m4Rotation_zero, tryInverse_one]
  rfl

/-- On a freshly constructed node every decomposed component is the
identity, so the recomputed local transform is again the identity. -/
theorem calc_default (P : Prims) (k : NodeKindM) :
    (NodeM.new k).calculate_local_transform P = some (NodeM.new k) := by
  unfold NodeM.calculate_local_transform
  have hq : (NodeM.new k).post_rotation = QuatM.id := rfl
  have hr : (NodeM.new k).rotation_pivot = V3.zero := rfl
  have hs : (NodeM.new k).scaling_pivot = V3.zero := rfl
  rw [hq, hr, hs, quatHom_id, m4Rotation_zero, tryInverse_one]
  have hro : (NodeM.new k).rotation_offset = V3.zero := rfl
  have hso : (NodeM.new k).scaling_offset = V3.zero := rfl
  simp only [hro, hso, m4Rotation_zero]
  have hpre : (NodeM.new k).pre_rotation = QuatM.id := rfl
  have hrot : (NodeM.new k).local_rotation = QuatM.id := rfl
  rw [hpre, hrot, quatHom_id]
  simp only [one_mul, mul_one]
  have hT : m4Translation (NodeM.new k).local_position = 1 := by
    have : (NodeM.new k).local_position = V3.zero := rfl
    rw [this, m4Translation_zero]
  have hS : m4Scaling (NodeM.new k).local_scale = 1 := by
    have : (NodeM.new k).local_scale = ⟨1, 1, 1⟩ := rfl
    rw [this, m4Scaling_one]
  rw [hT, hS, one_mul]
  rfl

/-! ## Claim C2: the local transform composition formula -/

/-- The composition formula as the specification words it:
`T · Ro · Rp · Rpre · R · Rpost⁻¹ · Rp⁻¹ · So · Sp · S · Sp⁻¹`, with the
three inverse factors passed in explicitly. -/
def specLocalTransform (P : Prims) (n : NodeM)
    (postInv rpInv spInv : M4) : M4 :=
  m4Translation n.local_position
    * m4Rotation P n.rotation_offset
    * m4Rotation P n.rotation_pivot
    * quatHom n.pre_rotation
    * quatHom n.local_rotation
    * postInv
    * rpInv
    * m4Rotation P n.scaling_offset
    * m4Rotation P n.scaling_pivot
    * m4Scaling n.local_scale
    * spInv

/-- Claim C2: for every node, `calculate_local_transform` sets
`local_transform` to exactly the product
T · Ro · Rp · Rpre · R · Rpost⁻¹ · Rp⁻¹ · So · Sp · S · Sp⁻¹, where the
three inverted factors are genuine left inverses of the post-rotation,
rotation-pivot and scaling-pivot matrices. -/
theorem claim_c2_local_transform_formula (P : Prims) (n : NodeM)
    (postInv rpInv spInv : M4)
    (h1 : tryInverse (quatHom n.post_rotation) = some postInv)
    (h2 : tryInverse (m4Rotation P n.rotation_pivot) = some rpInv)
    (h3 : tryInverse (m4Rotation P n.scaling_pivot) = some spInv) :
    n.calculate_local_transform P =
      some { n with local_transform := specLocalTransform P n postInv rpInv spInv } ∧
    postInv * quatHom n.post_rotation = 1 ∧
    rpInv * m4Rotation P n.rotation_pivot = 1 ∧
    spInv * m4Rotation P n.scaling_pivot = 1 := by
  refine ⟨?_, tryInverse_mul_left h1, tryInverse_mul_left h2, tryInverse_mul_left h3⟩
  unfold NodeM.calculate_local_transform
  rw [h1, h2, h3]
  rfl

/-- Concrete check of C2 at a default node under the trivial
primitives: every hypothesis holds with inverse factor 1 and the
computed local transform is the identity product. -/
theorem claim_c2_witness :
    tryInverse (quatHom (NodeM.new .base).post_rotation) = some 1 ∧
    tryInverse (m4Rotation trivPrims (NodeM.new .base).rotation_pivot) = some 1 ∧
    tryInverse (m4Rotation trivPrims (NodeM.new .base).scaling_pivot) = some 1 ∧
    (NodeM.new .base).calculate_local_transform trivPrims =
      some { NodeM.new .base with
        local_transform := specLocalTransform trivPrims (NodeM.new .base) 1 1 1 } := by
  have e1 : (NodeM.new .base).post_rotation = QuatM.id := rfl
  have e2 : (NodeM.new .base).rotation_pivot = V3.zero := rfl
  have e3 : (NodeM.new .base).scaling_pivot = V3.zero := rfl
  have h1 : tryInverse (quatHom (NodeM.new .base).post_rotation) = some 1 := by
    rw [e1, quatHom_id, tryInverse_one]
  have h2 : tryInverse (m4Rotation trivPrims (NodeM.new .base).rotation_pivot) = some 1 := by
    rw [e2, m4Rotation_zero, tryInverse_one]
  have h3 : tryInverse (m4Rotation trivPrims (NodeM.new .base).scaling_pivot) = some 1 := by
    rw [e3, m4Rotation_zero, tryInverse_one]
  exact ⟨h1, h2, h3,
    (claim_c2_local_transform_formula trivPrims (NodeM.new .base) 1 1 1 h1 h2 h3).1⟩

/-! ## Projection-preservation lemma for pool mutation -/

theorem PoolM.borrow_modify_map {β : Type} (proj : α → β) (f : α → α)
    (hf : ∀ v, proj (f v) = proj v) (p : PoolM α) (h q : HandleM) :
    ((p.modify h f).borrow q).map proj = (p.borrow q).map proj := by
  by_cases he : q = h
  · subst he
    match hb : p.borrow q with
    | some v => simp [PoolM.borrow_modify_self f hb, hb, hf]
    | Option.none => rw [PoolM.modify_of_borrow_none f hb, hb]
  · rw [PoolM.borrow_modify_ne f he]

/-! ## Structural equations for unlink -/

/-- The parent handle `unlink_node` reads before clearing it. -/
def unlinkParent (s : SceneM) (c : HandleM) : HandleM :=
  match s.nodes.borrow c with
  | some n => n.parent
  | Option.none => HandleM.none

theorem SceneM.unlink_node_nodes (s : SceneM) (c : HandleM) :
    (s.unlink_node c).nodes =
      (s.nodes.modify c (fun n => { n with parent := HandleM.none })).modify
        (unlinkParent s c)
        (fun n => { n with children := removeFirst c n.children }) := rfl

theorem SceneM.unlink_node_root (s : SceneM) (c : HandleM) :
    (s.unlink_node c).root = s.root := rfl

theorem SceneM.unlink_borrow_isSome (s : SceneM) (c q : HandleM) :
    ((s.unlink_node c).nodes.borrow q).isSome = (s.nodes.borrow q).isSome := by
  rw [SceneM.unlink_node_nodes, PoolM.borrow_modify_isSome,
    PoolM.borrow_modify_isSome]

theorem SceneM.unlink_borrow_none {s : SceneM} {c p : HandleM}
    (hp : s.nodes.borrow p = Option.none) :
    (s.unlink_node c).nodes.borrow p = Option.none := by
  have h1 := SceneM.unlink_borrow_isSome s c p
  rw [hp] at h1
  cases hb : (s.unlink_node c).nodes.borrow p with
  | none => rfl
  | some v => rw [hb] at h1; simp at h1

/-! ## Claim C6: remove_node frees only the slot -/

/-- Claim C6: for a valid handle, `remove_node` empties exactly that
slot; every other handle — in particular each child still referencing
the removed node through its `parent` field, and the old parent whose
children list still holds the removed handle — resolves to an entirely
unchanged node, and the scene root is untouched. -/
theorem claim_c6_remove_node_frees_only_the_slot (s : SceneM) (h : HandleM)
    (n : NodeM) (hb : s.borrow_node h = some n) :
    (s.remove_node h).borrow_node h = Option.none ∧
    (∀ h', h' ≠ h → (s.remove_node h).borrow_node h' = s.borrow_node h') ∧
    (s.remove_node h).root = s.root := by
  refine ⟨PoolM.borrow_free_self hb, fun h' hne => PoolM.borrow_free_ne hne, rfl⟩

/-- The one-child demo scene: the root `⟨0,0⟩` with a single linked
child `⟨1,0⟩`. -/
def demoScene1 : SceneM := (SceneM.new.add_node (NodeM.new .base)).2

/-- Concrete check of C6 on the one-child demo scene. -/
theorem claim_c6_witness :
    demoScene1.borrow_node ⟨1, 0⟩ =
      some { NodeM.new .base with parent := ⟨0, 0⟩ } ∧
    (demoScene1.remove_node ⟨1, 0⟩).borrow_node ⟨1, 0⟩ = Option.none ∧
    (demoScene1.remove_node ⟨1, 0⟩).borrow_node ⟨0, 0⟩ =
      demoScene1.borrow_node ⟨0, 0⟩ := by
  have hb : demoScene1.borrow_node ⟨1, 0⟩ =
      some { NodeM.new .base with parent := ⟨0, 0⟩ } := rfl
  have hres := claim_c6_remove_node_frees_only_the_slot demoScene1 ⟨1, 0⟩ _ hb
  exact ⟨hb, hres.1, hres.2.1 ⟨0, 0⟩ (by decide)⟩

/-! ## Claim C3: generational safety of the pool -/

theorem PoolM.genAt_free_of_borrow {p : PoolM α} {h : HandleM} {v : α}
    (hb : p.borrow h = some v) :
    (p.free h).genAt h.index = some (h.generation + 1) := by
  unfold PoolM.borrow at hb
  unfold PoolM.free PoolM.genAt
  match hs : p.slots[h.index]? with
  | some (.occupied g w) =>
    rw [hs] at hb
    by_cases hg : g = h.generation
    · subst hg
      simp [hs, List.getElem?_set_eq_of_lt _ (getElem?_some_lt_length hs), SlotM.gen]
    · simp [hg] at hb
  | some (.free g nx) => rw [hs] at hb; exact Option.noConfusion hb
  | Option.none => rw [hs] at hb; exact Option.noConfusion hb

theorem PoolM.spawn_snd_append (p : PoolM α) (v : α)
    (h : p.freeHead = Option.none) :
    (p.spawn v).2 = ⟨p.slots ++ [.occupied 0 v], p.freeHead⟩ := by
  simp only [PoolM.spawn, h]

theorem PoolM.spawn_snd_reuse (p : PoolM α) (v : α) {i g : Nat}
    {next : Option Nat} (h : p.freeHead = some i)
    (hs : p.slots[i]? = some (.free g next)) :
    (p.spawn v).2 = ⟨p.slots.set i (.occupied (g + 1) v), next⟩ := by
  simp only [PoolM.spawn, h, hs]

theorem PoolM.spawn_snd_append_occupied (p : PoolM α) (v : α) {i g : Nat}
    {w : α} (h : p.freeHead = some i) (hs : p.slots[i]? = some (.occupied g w)) :
    (p.spawn v).2 = ⟨p.slots ++ [.occupied 0 v], p.freeHead⟩ := by
  simp only [PoolM.spawn, h, hs]

theorem PoolM.spawn_snd_append_oob (p : PoolM α) (v : α) {i : Nat}
    (h : p.freeHead = some i) (hs : p.slots[i]? = Option.none) :
    (p.spawn v).2 = ⟨p.slots ++ [.occupied 0 v], p.freeHead⟩ := by
  simp only [PoolM.spawn, h, hs]

theorem PoolM.free_eq (p : PoolM α) (h : HandleM) {g : Nat} {w : α}
    (hs : p.slots[h.index]? = some (.occupied g w)) (hg : g = h.generation) :
    p.free h = ⟨p.slots.set h.index (.free (g + 1) p.freeHead), some h.index⟩ := by
  simp only [PoolM.free, hs, if_pos hg]

theorem PoolM.genAt_of_slot {p : PoolM α} {i : Nat} {sl : SlotM α}
    (hs : p.slots[i]? = some sl) : p.genAt i = some sl.gen := by
  unfold PoolM.genAt
  rw [hs, Option.map_some']

/-- Every spawn or free leaves each existing slot in place with a
generation at least as large as before. -/
theorem PoolM.genAt_mono_op (op : PoolOp α) (p : PoolM α) (i : Nat) (g : Nat)
    (hg : p.genAt i = some g) :
    ∃ g', g ≤ g' ∧ (p.applyOp op).genAt i = some g' := by
  have hex : ∃ sl, p.slots[i]? = some sl ∧ SlotM.gen sl = g := by
    unfold PoolM.genAt at hg
    cases hsl : p.slots[i]? with
    | none => rw [hsl] at hg; exact Option.noConfusion hg
    | some sl =>
      rw [hsl] at hg
      exact ⟨sl, rfl, by simpa using hg⟩
  obtain ⟨sl, hsl, hgen⟩ := hex
  have hlt : i < p.slots.length := getElem?_some_lt_length hsl
  cases op with
  | spawn v =>
    show ∃ g', g ≤ g' ∧ (p.spawn v).2.genAt i = some g'
    cases hfh : p.freeHead with
    | none =>
      refine ⟨g, le_refl g, ?_⟩
      rw [PoolM.spawn_snd_append p v hfh]
      unfold PoolM.genAt
      rw [List.getElem?_append_left hlt, hsl, Option.map_some', hgen]
    | some j =>
      cases hj : p.slots[j]? with
      | none =>
        refine ⟨g, le_refl g, ?_⟩
        rw [PoolM.spawn_snd_append_oob p v hfh hj]
        unfold PoolM.genAt
        rw [List.getElem?_append_left hlt, hsl, Option.map_some', hgen]
      | some sl2 =>
        cases sl2 with
        | occupied gj w =>
          refine ⟨g, le_refl g, ?_⟩
          rw [PoolM.spawn_snd_append_occupied p v hfh hj]
          unfold PoolM.genAt
          rw [List.getElem?_append_left hlt, hsl, Option.map_some', hgen]
        | free gj next =>
          rw [PoolM.spawn_snd_reuse p v hfh hj]
          by_cases hij : i = j
          · subst hij
            rw [hsl] at hj
            have hslv : sl = .free gj next := by injection hj
            subst hslv
            refine ⟨gj + 1, ?_, ?_⟩
            · rw [← hgen]; simp [SlotM.gen]
            · unfold PoolM.genAt
              rw [List.getElem?_set_eq_of_lt _ hlt, Option.map_some']
              rfl
          · refine ⟨g, le_refl g, ?_⟩
            unfold PoolM.genAt
            rw [List.getElem?_set_ne (fun he => hij he.symm), hsl,
              Option.map_some', hgen]
  | free h =>
    show ∃ g', g ≤ g' ∧ (p.free h).genAt i = some g'
    cases hbh : p.borrow h with
    | none =>
      refine ⟨g, le_refl g, ?_⟩
      rw [PoolM.free_of_borrow_none hbh]
      unfold PoolM.genAt
      rw [hsl, Option.map_some', hgen]
    | some w =>
      have hocc : p.slots[h.index]? = some (.occupied h.generation w) := by
        unfold PoolM.borrow at hbh
        cases hh : p.slots[h.index]? with
        | none => rw [hh] at hbh; exact Option.noConfusion hbh
        | some sl2 =>
          rw [hh] at hbh
          cases sl2 with
          | free gh nx => exact Option.noConfusion hbh
          | occupied gh w' =>
            have hbh' : (if gh = h.generation then some w' else Option.none) =
                some w := hbh
            by_cases hgh : gh = h.generation
            · rw [if_pos hgh] at hbh'
              injection hbh' with hw
              rw [hgh, hw]
            · rw [if_neg hgh] at hbh'
              exact Option.noConfusion hbh'
      rw [PoolM.free_eq p h hocc rfl]
      by_cases hih : i = h.index
      · subst hih
        rw [hsl] at hocc
        have hslv : sl = .occupied h.generation w := by injection hocc
        subst hslv
        refine ⟨h.generation + 1, ?_, ?_⟩
        · rw [← hgen]; simp [SlotM.gen]
        · unfold PoolM.genAt
          rw [List.getElem?_set_eq_of_lt _ hlt, Option.map_some']
          rfl
      · refine ⟨g, le_refl g, ?_⟩
        unfold PoolM.genAt
        rw [List.getElem?_set_ne (fun he => hih he.symm), hsl,
          Option.map_some', hgen]

theorem PoolM.genAt_mono_ops (ops : List (PoolOp α)) (p : PoolM α) (i : Nat)
    (g : Nat) (hg : p.genAt i = some g) :
    ∃ g', g ≤ g' ∧ (p.applyOps ops).genAt i = some g' := by
  induction ops generalizing p g with
  | nil => exact ⟨g, le_refl g, hg⟩
  | cons op ops ih =>
    obtain ⟨g1, hle1, hg1⟩ := PoolM.genAt_mono_op op p i g hg
    obtain ⟨g2, hle2, hg2⟩ := ih (p.applyOp op) g1 hg1
    exact ⟨g2, le_trans hle1 hle2, hg2⟩

theorem PoolM.borrow_none_of_genAt_gt {p : PoolM α} {h : HandleM} {g : Nat}
    (hg : p.genAt h.index = some g) (hlt : h.generation < g) :
    p.borrow h = Option.none := by
  unfold PoolM.genAt at hg
  unfold PoolM.borrow
  match hs : p.slots[h.index]? with
  | some (.occupied g' v) =>
    rw [hs] at hg
    simp only [Option.map_some', Option.some.injEq, SlotM.gen] at hg
    have : ¬g' = h.generation := by omega
    simp [this]
  | some (.free g' nx) => rfl
  | Option.none => rfl

/-- Claim C3: once a handle's slot is freed, that handle never resolves
again under any further sequence of spawns and frees — in particular it
never resolves to a later occupant reusing the same index — because the
free itself bumps the slot generation past the handle's and the
generation never decreases afterwards.  (`borrow_mut` shares `borrow`'s
resolution rule.) -/
theorem claim_c3_pool_generational_safety (p : PoolM α) (h : HandleM) (v : α)
    (hb : p.borrow h = some v) (ops : List (PoolOp α)) :
    ((p.free h).applyOps ops).borrow h = Option.none ∧
    (p.free h).genAt h.index = some (h.generation + 1) := by
  have hgen := PoolM.genAt_free_of_borrow hb
  obtain ⟨g', hle, hg'⟩ := PoolM.genAt_mono_ops ops (p.free h) h.index _ hgen
  exact ⟨PoolM.borrow_none_of_genAt_gt hg' (by omega), hgen⟩

/-- Concrete check of C3: spawn a value, free it, spawn again (which
reuses the slot), and observe the stale handle no longer resolves. -/
theorem claim_c3_witness :
    ((PoolM.new : PoolM ℕ).spawn 7).2.borrow ⟨0, 0⟩ = some 7 ∧
    (((((PoolM.new : PoolM ℕ).spawn 7).2.free ⟨0, 0⟩).applyOps
      [PoolOp.spawn 42]).borrow ⟨0, 0⟩ = Option.none) := by
  have hb : ((PoolM.new : PoolM ℕ).spawn 7).2.borrow ⟨0, 0⟩ = some 7 := rfl
  exact ⟨hb, (claim_c3_pool_generational_safety _ _ _ hb [PoolOp.spawn 42]).1⟩

/-! ## Claim C8: the texture cache returns the shared instance -/

theorem findRes_cons (rid : Nat) (r : ResourceM) (rest : List (Nat × ResourceM))
    (path : String) :
    findRes ((rid, r) :: rest) path =
      (if r.path = path then
        (match r.kind with
         | .texture _ => some (some rid)
         | _ => some Option.none)
       else findRes rest path) := rfl

theorem findRes_append_of_none {l : List (Nat × ResourceM)} {path : String}
    (h : findRes l path = Option.none) (l' : List (Nat × ResourceM)) :
    findRes (l ++ l') path = findRes l' path := by
  induction l with
  | nil => rfl
  | cons e rest ih =>
    obtain ⟨rid, r⟩ := e
    rw [findRes_cons] at h
    rw [List.cons_append, findRes_cons]
    by_cases hp : r.path = path
    · rw [if_pos hp] at h
      cases hk : r.kind <;> rw [hk] at h <;> exact Option.noConfusion h
    · rw [if_neg hp] at h ⊢
      exact ih h

/-- Claim C8: a successful `request_texture` is idempotent — repeating
the same path immediately returns the very entry (same shared-instance
identity) the first call produced or found, with the cache unchanged. -/
theorem claim_c8_texture_cache_shared (load : String → Option TextureM)
    (e : EngineM) (path : String) (rid : Nat) (e' : EngineM)
    (h1 : e.request_texture load path = (some rid, e')) :
    e'.request_texture load path = (some rid, e') := by
  unfold EngineM.request_texture at h1 ⊢
  match hf : findRes e.resources path with
  | some (some r) =>
    rw [hf] at h1
    rw [Prod.mk.injEq] at h1
    obtain ⟨h1a, h1b⟩ := h1
    injection h1a with h1a'
    subst h1a'
    subst h1b
    rw [hf]
  | some Option.none =>
    rw [hf] at h1
    rw [Prod.mk.injEq] at h1
    exact absurd h1.1 (by simp)
  | Option.none =>
    rw [hf] at h1
    match hl : load path with
    | some texture =>
      rw [hl] at h1
      rw [Prod.mk.injEq] at h1
      obtain ⟨h1a, h1b⟩ := h1
      injection h1a with h1a'
      subst h1a'
      subst h1b
      rw [findRes_append_of_none hf, findRes_cons, if_pos rfl]
    | Option.none =>
      rw [hl] at h1
      rw [Prod.mk.injEq] at h1
      exact absurd h1.1 (by simp)

/-- A loader that always produces a fixed decoded texture. -/
def demoLoad : String → Option TextureM := fun _ => some ⟨2, 2, Option.none, true, []⟩

/-- Concrete check of C8: loading "tex" into an empty engine succeeds
with identity 0, and requesting it again returns identity 0 with the
cache unchanged. -/
theorem claim_c8_witness :
    EngineM.new.request_texture demoLoad "tex" =
      (some 0, ⟨[(0, ⟨"tex", .texture ⟨2, 2, Option.none, true, []⟩⟩)], 1⟩) ∧
    (⟨[(0, ⟨"tex", .texture ⟨2, 2, Option.none, true, []⟩⟩)], 1⟩ : EngineM).request_texture
        demoLoad "tex" =
      (some 0, ⟨[(0, ⟨"tex", .texture ⟨2, 2, Option.none, true, []⟩⟩)], 1⟩) := by
  have h1 : EngineM.new.request_texture demoLoad "tex" =
      (some 0, ⟨[(0, ⟨"tex", .texture ⟨2, 2, Option.none, true, []⟩⟩)], 1⟩) := rfl
  exact ⟨h1, claim_c8_texture_cache_shared demoLoad EngineM.new "tex" 0 _ h1⟩

/-! ## Claim C5: link_nodes with a missing handle -/

/-- Counterexample to claim C5 as stated: in the one-child demo scene
the parent handle `⟨9,5⟩` does not resolve, the child `⟨1,0⟩` is valid
with parent the root, and yet `link_nodes` does modify a parent field:
the child's parent is set to the missing handle. -/
theorem claim_c5_counterexample :
    demoScene1.borrow_node ⟨9, 5⟩ = Option.none ∧
    (demoScene1.borrow_node ⟨1, 0⟩).map NodeM.parent = some ⟨0, 0⟩ ∧
    ((demoScene1.link_nodes ⟨1, 0⟩ ⟨9, 5⟩).borrow_node ⟨1, 0⟩).map NodeM.parent =
      some ⟨9, 5⟩ := by
  exact ⟨rfl, rfl, rfl⟩

/-- Claim C5 (amended): when the parent handle is missing, the unlink
step still runs and a valid child still gets its parent field set to the
missing parent handle; only the push onto a children list is skipped, so
every children list is exactly as the unlink left it (and a missing
child handle reduces the call to the bare unlink attempt). -/
theorem claim_c5_amended_missing_parent (s : SceneM) (c p : HandleM)
    (hp : s.nodes.borrow p = Option.none) :
    s.link_nodes c p =
      { s.unlink_node c with
        nodes := ((s.unlink_node c).nodes.modify c
          (fun n => { n with parent := p })) } ∧
    ∀ q, ((s.link_nodes c p).nodes.borrow q).map NodeM.children =
      ((s.unlink_node c).nodes.borrow q).map NodeM.children := by
  have hp1 : (s.unlink_node c).nodes.borrow p = Option.none :=
    SceneM.unlink_borrow_none hp
  have hp2 : (((s.unlink_node c).nodes.modify c
      (fun n => { n with parent := p })).borrow p) = Option.none := by
    have h1 := PoolM.borrow_modify_isSome (s.unlink_node c).nodes c p
      (fun n => { n with parent := p })
    rw [hp1] at h1
    cases hb2 : ((s.unlink_node c).nodes.modify c
        (fun n => { n with parent := p })).borrow p with
    | none => rfl
    | some v => rw [hb2] at h1; simp at h1
  have hmain : s.link_nodes c p =
      { s.unlink_node c with
        nodes := ((s.unlink_node c).nodes.modify c
          (fun n => { n with parent := p })) } := by
    show (match (s.unlink_node c).nodes.borrow c with
      | Option.none => s.unlink_node c
      | some _ =>
        match ((s.unlink_node c).nodes.modify c
            (fun n => { n with parent := p })).borrow p with
        | Option.none =>
          { s.unlink_node c with
            nodes := ((s.unlink_node c).nodes.modify c
              (fun n => { n with parent := p })) }
        | some _ =>
          { s.unlink_node c with
            nodes := (((s.unlink_node c).nodes.modify c
                (fun n => { n with parent := p })).modify p
              (fun n => { n with children := n.children ++ [c] })) }) =
      { s.unlink_node c with
        nodes := ((s.unlink_node c).nodes.modify c
          (fun n => { n with parent := p })) }
    match hc1 : (s.unlink_node c).nodes.borrow c with
    | Option.none =>
      rw [PoolM.modify_of_borrow_none _ hc1]
    | some node =>
      rw [hp2]
  refine ⟨hmain, fun q => ?_⟩
  rw [hmain]
  exact PoolM.borrow_modify_map NodeM.children
    (fun n => { n with parent := p }) (fun v => rfl)
    (s.unlink_node c).nodes c q

/-- Concrete check of the amended C5 on the one-child demo scene with
the missing parent handle `⟨7,3⟩`. -/
theorem claim_c5_witness :
    demoScene1.nodes.borrow ⟨7, 3⟩ = Option.none ∧
    demoScene1.link_nodes ⟨1, 0⟩ ⟨7, 3⟩ =
      { demoScene1.unlink_node ⟨1, 0⟩ with
        nodes := ((demoScene1.unlink_node ⟨1, 0⟩).nodes.modify ⟨1, 0⟩
          (fun n => { n with parent := ⟨7, 3⟩ })) } := by
  have hp : demoScene1.nodes.borrow ⟨7, 3⟩ = Option.none := rfl
  exact ⟨hp, (claim_c5_amended_missing_parent demoScene1 ⟨1, 0⟩ ⟨7, 3⟩ hp).1⟩

/-! ## Claim C1: global transform composed from the parent's local -/

/-- `calculate_local_transform` only rewrites the `local_transform`
field: a successful result is the input node with a new local
transform. -/
theorem calc_shape (P : Prims) (n : NodeM) {n' : NodeM}
    (hc : n.calculate_local_transform P = some n') :
    n' = { n with local_transform := n'.local_transform } := by
  unfold NodeM.calculate_local_transform at hc
  cases h1 : tryInverse (quatHom n.post_rotation) with
  | none => rw [h1] at hc; exact Option.noConfusion hc
  | some a =>
    rw [h1] at hc
    cases h2 : tryInverse (m4Rotation P n.rotation_pivot) with
    | none => rw [h2] at hc; exact Option.noConfusion hc
    | some b =>
      rw [h2] at hc
      cases h3 : tryInverse (m4Rotation P n.scaling_pivot) with
      | none => rw [h3] at hc; exact Option.noConfusion hc
      | some cI =>
        rw [h3] at hc
        injection hc with he
        rw [← he]

theorem camAdjust_local (P : Prims) (aspect : ℚ) (m : NodeM) :
    (camAdjust P aspect m).local_transform = m.local_transform := by
  unfold camAdjust
  cases hk : m.kind <;> rfl

theorem camAdjust_global (P : Prims) (aspect : ℚ) (m : NodeM) :
    (camAdjust P aspect m).global_transform = m.global_transform := by
  unfold camAdjust
  cases hk : m.kind <;> rfl

theorem camAdjust_children (P : Prims) (aspect : ℚ) (m : NodeM) :
    (camAdjust P aspect m).children = m.children := by
  unfold camAdjust
  cases hk : m.kind <;> rfl

theorem camAdjust_parent (P : Prims) (aspect : ℚ) (m : NodeM) :
    (camAdjust P aspect m).parent = m.parent := by
  unfold camAdjust
  cases hk : m.kind <;> rfl

/-- The successful shape of one update iteration. -/
theorem updateStep_some (P : Prims) (aspect : ℚ) (s : SceneM) (h : HandleM)
    {n n' : NodeM} (hb : s.nodes.borrow h = some n)
    (hc : n.calculate_local_transform P = some n') :
    updateStep P aspect s h = some
      ({ s with nodes := (s.nodes.modify h (fun _ => camAdjust P aspect
          { n' with global_transform :=
            (n'.local_transform * parentLocalAfter s h n') })) },
        n'.children.reverse) := by
  simp only [updateStep, hb, hc]

/-- The skipping shape of one update iteration: a handle that does not
resolve changes nothing and pushes nothing. -/
theorem updateStep_skip (P : Prims) (aspect : ℚ) (s : SceneM) (h : HandleM)
    (hb : s.nodes.borrow h = Option.none) :
    updateStep P aspect s h = some (s, []) := by
  simp only [updateStep, hb]

/-- Claim C1: every node processed by `Scene::update` gets
`global_transform = (freshly recomputed) local_transform *
parent_local_transform`, where the parent factor is the parent's
`local_transform` — read back from the pool after the node's own write,
never the parent's `global_transform` — and the identity stands in for
the root's none-parent and for any parent handle that does not
resolve. -/
theorem claim_c1_update_global_from_parent_local (P : Prims) (aspect : ℚ)
    (s : SceneM) (h : HandleM) (n n' : NodeM)
    (hb : s.nodes.borrow h = some n)
    (hc : n.calculate_local_transform P = some n') :
    ∃ s2, updateStep P aspect s h = some (s2, n'.children.reverse) ∧
      ∃ n2, s2.nodes.borrow h = some n2 ∧
        n2.local_transform = n'.local_transform ∧
        n2.global_transform = n'.local_transform * parentLocalAfter s h n' ∧
        (∀ pn, (s.nodes.modify h (fun _ => n')).borrow n'.parent = some pn →
          parentLocalAfter s h n' = pn.local_transform) ∧
        ((s.nodes.modify h (fun _ => n')).borrow n'.parent = Option.none →
          parentLocalAfter s h n' = 1) ∧
        (s.nodes.slots.length ≤ HandleM.noneIndex → n.parent = HandleM.none →
          n2.global_transform = n'.local_transform) := by
  refine ⟨_, updateStep_some P aspect s h hb hc, ?_⟩
  have hb2 : ({ s with nodes := (s.nodes.modify h (fun _ => camAdjust P aspect
      { n' with global_transform :=
        (n'.local_transform * parentLocalAfter s h n') })) } : SceneM).nodes.borrow h =
      some (camAdjust P aspect { n' with global_transform :=
        (n'.local_transform * parentLocalAfter s h n') }) :=
    PoolM.borrow_modify_self _ hb
  refine ⟨_, hb2, ?_, ?_, ?_, ?_, ?_⟩
  · rw [camAdjust_local]
  · rw [camAdjust_global]
  · intro pn hpn
    unfold parentLocalAfter
    rw [hpn]
  · intro hpn
    unfold parentLocalAfter
    rw [hpn]
  · intro hlen hpar
    have hpar' : n'.parent = HandleM.none := by
      have := congrArg NodeM.parent (calc_shape P n hc)
      simp only at this
      rw [this, hpar]
    have hnone : (s.nodes.modify h (fun _ => n')).borrow n'.parent =
        Option.none := by
      apply PoolM.borrow_none_of_big
      rw [PoolM.modify_slots_length, hpar']
      exact hlen
    rw [camAdjust_global]
    show ({ n' with global_transform :=
      (n'.local_transform * parentLocalAfter s h n') }).global_transform =
      n'.local_transform
    have hone : parentLocalAfter s h n' = 1 := by
      unfold parentLocalAfter
      rw [hnone]
    simp only [hone, mul_one]

/-- Concrete check of C1 at the root of a fresh scene: the recomputed
local transform is the identity, the root's none parent contributes the
identity factor, and the traversal step succeeds. -/
theorem claim_c1_witness :
    SceneM.new.nodes.borrow ⟨0, 0⟩ = some (NodeM.new .base) ∧
    (NodeM.new .base).calculate_local_transform trivPrims =
      some (NodeM.new .base) ∧
    (∃ s2, updateStep trivPrims 1 SceneM.new ⟨0, 0⟩ =
        some (s2, (NodeM.new .base).children.reverse) ∧
      ∃ n2, s2.nodes.borrow ⟨0, 0⟩ = some n2 ∧
        n2.local_transform = (NodeM.new .base).local_transform ∧
        n2.global_transform = (NodeM.new .base).local_transform *
          parentLocalAfter SceneM.new ⟨0, 0⟩ (NodeM.new .base) ∧
        (∀ pn, (SceneM.new.nodes.modify ⟨0, 0⟩
            (fun _ => NodeM.new .base)).borrow (NodeM.new .base).parent = some pn →
          parentLocalAfter SceneM.new ⟨0, 0⟩ (NodeM.new .base) =
            pn.local_transform) ∧
        ((SceneM.new.nodes.modify ⟨0, 0⟩
            (fun _ => NodeM.new .base)).borrow (NodeM.new .base).parent =
              Option.none →
          parentLocalAfter SceneM.new ⟨0, 0⟩ (NodeM.new .base) = 1) ∧
        (SceneM.new.nodes.slots.length ≤ HandleM.noneIndex →
          (NodeM.new .base).parent = HandleM.none →
          n2.global_transform = (NodeM.new .base).local_transform)) := by
  exact ⟨rfl, calc_default trivPrims .base,
    claim_c1_update_global_from_parent_local trivPrims 1 SceneM.new ⟨0, 0⟩
      (NodeM.new .base) (NodeM.new .base) rfl (calc_default trivPrims .base)⟩

/-! ## Claim C7: every camera draws every mesh with mvp = (P*V)*G -/

/-- A bucket entry that resolves to a camera node. -/
def camOK (s : SceneM) (h : HandleM) : Prop :=
  ∃ n c, s.nodes.borrow h = some n ∧ n.kind = .camera c

/-- A bucket entry that resolves to a mesh node. -/
def meshOK (s : SceneM) (h : HandleM) : Prop :=
  ∃ n m, s.nodes.borrow h = some n ∧ n.kind = .mesh m

/-- Spec-side reading of a camera's `view_projection`:
`projection_matrix * view_matrix` of the camera the handle resolves
to. -/
def viewProjOf (s : SceneM) (h : HandleM) : M4 :=
  match s.nodes.borrow h with
  | some n =>
    match n.kind with
    | .camera c => c.projection_matrix * c.view_matrix
    | _ => 1
  | Option.none => 1

/-- Spec-side reading of a mesh node's global transform. -/
def globalOf (s : SceneM) (h : HandleM) : M4 :=
  match s.nodes.borrow h with
  | some n => n.global_transform
  | Option.none => 1

/-- Spec-side count of the surfaces a mesh bucket entry draws. -/
def surfacesOf (s : SceneM) (h : HandleM) : Nat :=
  match s.nodes.borrow h with
  | some n => surfaceDrawsOf n.kind
  | Option.none => 0

/-- The draw call the specification prescribes for one camera and one
mesh: upload `(projection_matrix * view_matrix) * global_transform` and
draw every surface of the mesh. -/
def specDraw (s : SceneM) (c m : HandleM) : DrawCall :=
  ⟨c, m, viewProjOf s c * globalOf s m, surfacesOf s m⟩

/-- Every handle the classification traversal puts into the cameras
bucket resolves to a camera node, and every meshes-bucket entry to a
mesh node. -/
theorem collectLoop_inv (s : SceneM) (fuel : Nat) (stack : List HandleM)
    (cams lights meshes : List HandleM)
    (hc : ∀ h ∈ cams, camOK s h) (hm : ∀ h ∈ meshes, meshOK s h) :
    (∀ h ∈ (collectLoop s fuel stack (cams, lights, meshes)).1, camOK s h) ∧
    (∀ h ∈ (collectLoop s fuel stack (cams, lights, meshes)).2.2, meshOK s h) := by
  induction fuel generalizing stack cams lights meshes with
  | zero => exact ⟨hc, hm⟩
  | succ fuel ih =>
    cases stack with
    | nil => exact ⟨hc, hm⟩
    | cons h rest =>
      cases hb : s.nodes.borrow h with
      | none =>
        have heq : collectLoop s (fuel + 1) (h :: rest) (cams, lights, meshes) =
            collectLoop s fuel rest (cams, lights, meshes) := by
          simp only [collectLoop, hb]
        rw [heq]
        exact ih rest cams lights meshes hc hm
      | some node =>
        cases hk : node.kind with
        | mesh mm =>
          have heq : collectLoop s (fuel + 1) (h :: rest) (cams, lights, meshes) =
              collectLoop s fuel (node.children.reverse ++ rest)
                (cams, lights, meshes ++ [h]) := by
            simp only [collectLoop, hb, hk]
          rw [heq]
          refine ih _ _ _ _ hc ?_
          intro h' hmem
          rcases List.mem_append.1 hmem with hold | hnew
          · exact hm h' hold
          · rcases List.mem_singleton.1 hnew with rfl
            exact ⟨node, mm, hb, hk⟩
        | light ll =>
          have heq : collectLoop s (fuel + 1) (h :: rest) (cams, lights, meshes) =
              collectLoop s fuel (node.children.reverse ++ rest)
                (cams, lights ++ [h], meshes) := by
            simp only [collectLoop, hb, hk]
          rw [heq]
          exact ih _ _ _ _ hc hm
        | camera cc =>
          have heq : collectLoop s (fuel + 1) (h :: rest) (cams, lights, meshes) =
              collectLoop s fuel (node.children.reverse ++ rest)
                (cams ++ [h], lights, meshes) := by
            simp only [collectLoop, hb, hk]
          rw [heq]
          refine ih _ _ _ _ ?_ hm
          intro h' hmem
          rcases List.mem_append.1 hmem with hold | hnew
          · exact hc h' hold
          · rcases List.mem_singleton.1 hnew with rfl
            exact ⟨node, cc, hb, hk⟩
        | base =>
          have heq : collectLoop s (fuel + 1) (h :: rest) (cams, lights, meshes) =
              collectLoop s fuel (node.children.reverse ++ rest)
                (cams, lights, meshes) := by
            simp only [collectLoop, hb, hk]
          rw [heq]
          exact ih _ _ _ _ hc hm
        | custom =>
          have heq : collectLoop s (fuel + 1) (h :: rest) (cams, lights, meshes) =
              collectLoop s fuel (node.children.reverse ++ rest)
                (cams, lights, meshes) := by
            simp only [collectLoop, hb, hk]
          rw [heq]
          exact ih _ _ _ _ hc hm

/-- Inner loop of the drawing phase: over a meshes bucket whose entries
all resolve to mesh nodes, the emitted draws for one camera node are
exactly the per-mesh spec draws. -/
theorem drawPhase_inner (s : SceneM) (ch : HandleM) (cn : NodeM) (cc : CameraM)
    (hb : s.nodes.borrow ch = some cn) (hk : cn.kind = .camera cc)
    (meshes : List HandleM) (hm : ∀ h ∈ meshes, meshOK s h) :
    (meshes.flatMap fun mesh_handle =>
      match s.nodes.borrow mesh_handle with
      | some node =>
        [⟨ch, mesh_handle,
          cc.get_view_projection_matrix * node.global_transform,
          surfaceDrawsOf node.kind⟩]
      | Option.none => []) = meshes.map (specDraw s ch) := by
  induction meshes with
  | nil => rfl
  | cons mh rest ih =>
    have hm0 := hm mh (List.mem_cons_self mh rest)
    obtain ⟨mn, mm, hbm, hkm⟩ := hm0
    rw [List.flatMap_cons, List.map_cons, hbm,
      ih (fun h' h'mem => hm h' (List.mem_cons_of_mem mh h'mem))]
    have hsd : specDraw s ch mh =
        ⟨ch, mh, cc.get_view_projection_matrix * mn.global_transform,
          surfaceDrawsOf mn.kind⟩ := by
      unfold specDraw viewProjOf globalOf surfacesOf
      simp only [hb, hk, hbm]
      rfl
    rw [hsd]
    rfl

/-- Drawing phase over buckets that satisfy the traversal invariant:
the draw list is the camera-major cross product with the spec draw for
every pair. -/
theorem drawPhase_eq (s : SceneM) (cams meshes : List HandleM)
    (hc : ∀ h ∈ cams, camOK s h) (hm : ∀ h ∈ meshes, meshOK s h) :
    drawPhase s cams meshes = cams.flatMap fun c => meshes.map (specDraw s c) := by
  induction cams with
  | nil => rfl
  | cons ch rest ih =>
    have hc0 := hc ch (List.mem_cons_self ch rest)
    obtain ⟨cn, cc, hb, hk⟩ := hc0
    unfold drawPhase
    rw [List.flatMap_cons, List.flatMap_cons]
    simp only [hb, hk]
    rw [drawPhase_inner s ch cn cc hb hk meshes hm]
    unfold drawPhase at ih
    rw [ih (fun h' h'mem => hc h' (List.mem_cons_of_mem ch h'mem))]

/-- Claim C7: per scene, `Renderer::render` issues, for each camera in
traversal-discovery order and each mesh in traversal-discovery order,
exactly one draw-call group whose uploaded uniform is
`(projection_matrix * view_matrix) * mesh.global_transform` covering
every surface of that mesh — no per-camera culling or filtering, every
camera renders every mesh. -/
theorem claim_c7_render_cross_product (s : SceneM) (fuel : Nat) :
    renderScene s fuel =
      ((collectLoop s fuel [s.root] ([], [], [])).1.flatMap fun c =>
        (collectLoop s fuel [s.root] ([], [], [])).2.2.map (specDraw s c)) ∧
    ∀ c ∈ (collectLoop s fuel [s.root] ([], [], [])).1,
      ∀ m ∈ (collectLoop s fuel [s.root] ([], [], [])).2.2,
        specDraw s c m ∈ renderScene s fuel := by
  obtain ⟨hc, hm⟩ := collectLoop_inv s fuel [s.root] [] [] []
    (fun h hmem => absurd hmem (List.not_mem_nil h))
    (fun h hmem => absurd hmem (List.not_mem_nil h))
  have hmain : renderScene s fuel =
      ((collectLoop s fuel [s.root] ([], [], [])).1.flatMap fun c =>
        (collectLoop s fuel [s.root] ([], [], [])).2.2.map (specDraw s c)) := by
    unfold renderScene
    exact drawPhase_eq s _ _ hc hm
  refine ⟨hmain, fun c hcm m hmm => ?_⟩
  rw [hmain]
  exact List.mem_flatMap.2 ⟨c, hcm, List.mem_map_of_mem (specDraw s c) hmm⟩

/-! ## Claim C4: the link/unlink invariant -/

theorem PoolM.borrow_eq_some_iff {p : PoolM α} {h : HandleM} {v : α} :
    p.borrow h = some v ↔ p.slots[h.index]? = some (.occupied h.generation v) := by
  constructor
  · intro hb
    unfold PoolM.borrow at hb
    cases hs : p.slots[h.index]? with
    | none => rw [hs] at hb; exact Option.noConfusion hb
    | some sl =>
      rw [hs] at hb
      cases sl with
      | free g nx => exact Option.noConfusion hb
      | occupied g w =>
        have hb' : (if g = h.generation then some w else Option.none) = some v := hb
        by_cases hg : g = h.generation
        · rw [if_pos hg] at hb'
          injection hb' with hw
          rw [hg, hw]
        · rw [if_neg hg] at hb'
          exact Option.noConfusion hb'
  · intro hs
    unfold PoolM.borrow
    rw [hs]
    show (if h.generation = h.generation then some v else Option.none) = some v
    rw [if_pos rfl]

theorem HandleM.eta (q : HandleM) : (⟨q.index, q.generation⟩ : HandleM) = q := rfl

theorem countH_eq_zero_of_not_mem {h : HandleM} {l : List HandleM}
    (hm : h ∉ l) : countH h l = 0 := by
  by_contra hc
  exact hm (mem_of_countH_pos (by omega))

/-- Per-slot consistency check: every child handle listed by an occupied
slot appears exactly once in that list, and if it resolves, the child's
parent field points back at this slot's current handle. -/
def slotConsistentB (s : SceneM) (i : Nat) : Bool :=
  match s.nodes.slots[i]? with
  | some (.occupied g n) =>
    n.children.all fun c =>
      decide (countH c n.children = 1) &&
      (match s.nodes.borrow c with
       | some cn => decide (cn.parent = (⟨i, g⟩ : HandleM))
       | Option.none => true)
  | _ => true

/-- Scene-graph consistency (the spec's mutual parent/children
invariant, directed): children lists are duplicate-free and any live
listed child points back at its listing parent. -/
def SceneM.Consistent (s : SceneM) : Prop :=
  (List.range s.nodes.slots.length).all (fun i => slotConsistentB s i) = true

instance (s : SceneM) : Decidable s.Consistent :=
  inferInstanceAs (Decidable ((List.range s.nodes.slots.length).all
    (fun i => slotConsistentB s i) = true))

theorem consistent_spec {s : SceneM} (hs : s.Consistent) {q : HandleM}
    {qn : NodeM} (hb : s.nodes.borrow q = some qn) {c : HandleM}
    (hc : c ∈ qn.children) :
    countH c qn.children = 1 ∧
    (∀ cn, s.nodes.borrow c = some cn → cn.parent = q) := by
  have hocc := PoolM.borrow_eq_some_iff.1 hb
  have hlt := getElem?_some_lt_length hocc
  have hslot : slotConsistentB s q.index = true :=
    List.all_eq_true.1 hs q.index (List.mem_range.2 hlt)
  unfold slotConsistentB at hslot
  rw [hocc] at hslot
  have hcval := List.all_eq_true.1 hslot c hc
  rw [Bool.and_eq_true] at hcval
  refine ⟨of_decide_eq_true hcval.1, fun cn hbc => ?_⟩
  have h2 := hcval.2
  rw [hbc] at h2
  have := of_decide_eq_true h2
  rw [this, HandleM.eta]

/-- Core unlink lemma: in a consistent scene, unlinking a valid node
clears its parent field and leaves no children list containing it. -/
theorem unlink_spec (s : SceneM) (c : HandleM) (cn : NodeM)
    (hcons : s.Consistent) (hb : s.nodes.borrow c = some cn) :
    (∃ cn', (s.unlink_node c).nodes.borrow c = some cn' ∧
      cn'.parent = HandleM.none) ∧
    (∀ q qn, (s.unlink_node c).nodes.borrow q = some qn → c ∉ qn.children) := by
  have hq0 : unlinkParent s c = cn.parent := by
    unfold unlinkParent
    rw [hb]
  have hnodes := SceneM.unlink_node_nodes s c
  rw [hq0] at hnodes
  have hb1 : (s.nodes.modify c (fun n => { n with parent := HandleM.none })).borrow c =
      some { cn with parent := HandleM.none } :=
    PoolM.borrow_modify_self _ hb
  -- children lists in the intermediate pool agree with the original
  have hchld1 : ∀ q, ((s.nodes.modify c
      (fun n => { n with parent := HandleM.none })).borrow q).map NodeM.children =
      (s.nodes.borrow q).map NodeM.children :=
    fun q => PoolM.borrow_modify_map NodeM.children
      (fun n => { n with parent := HandleM.none }) (fun v => rfl) s.nodes c q
  cases hq0b : (s.nodes.modify c
      (fun n => { n with parent := HandleM.none })).borrow cn.parent with
  | none =>
    have hnoop : (s.unlink_node c).nodes =
        s.nodes.modify c (fun n => { n with parent := HandleM.none }) := by
      rw [hnodes, PoolM.modify_of_borrow_none _ hq0b]
    constructor
    · refine ⟨{ cn with parent := HandleM.none }, ?_, rfl⟩
      rw [hnoop]
      exact hb1
    · intro q qn hbq hmem
      rw [hnoop] at hbq
      -- recover the original node at q and its children
      have hmap := hchld1 q
      rw [hbq, Option.map_some'] at hmap
      cases hbq0 : s.nodes.borrow q with
      | none => rw [hbq0] at hmap; exact Option.noConfusion hmap
      | some qn0 =>
        rw [hbq0, Option.map_some'] at hmap
        injection hmap with hmap'
        have hmem0 : c ∈ qn0.children := by rw [← hmap']; exact hmem
        have hpar := (consistent_spec hcons hbq0 hmem0).2 cn hb
        -- so q is c's parent, whose borrow in the modified pool is none
        rw [← hpar] at hbq
        rw [hbq] at hq0b
        exact Option.noConfusion hq0b
  | some pq =>
    have hfin : (s.unlink_node c).nodes =
        ((s.nodes.modify c (fun n => { n with parent := HandleM.none })).modify
          cn.parent (fun n => { n with children := removeFirst c n.children })) :=
      hnodes
    -- children of cn.parent in the original scene
    have hmapq0 := hchld1 cn.parent
    rw [hq0b, Option.map_some'] at hmapq0
    have hsq0 : ∃ qn0, s.nodes.borrow cn.parent = some qn0 ∧
        qn0.children = pq.children := by
      cases hbq0 : s.nodes.borrow cn.parent with
      | none => rw [hbq0] at hmapq0; exact Option.noConfusion hmapq0
      | some qn0 =>
        rw [hbq0, Option.map_some'] at hmapq0
        injection hmapq0 with hmap'
        exact ⟨qn0, rfl, hmap'.symm⟩
    obtain ⟨qn0, hbq0, hch0⟩ := hsq0
    constructor
    · -- borrow c after the removal step
      by_cases hcq : c = cn.parent
      · -- self-parent: the removal also runs on c's slot
        rw [← hcq] at hq0b hfin
        rw [hb1] at hq0b
        injection hq0b with hpq
        refine ⟨{ pq with children := removeFirst c pq.children }, ?_, ?_⟩
        · rw [hfin]
          have hq0b' : (s.nodes.modify c
              (fun n => { n with parent := HandleM.none })).borrow c = some pq := by
            rw [hb1, hpq]
          exact PoolM.borrow_modify_self _ hq0b'
        · show pq.parent = HandleM.none
          rw [← hpq]
      · refine ⟨{ cn with parent := HandleM.none }, ?_, rfl⟩
        rw [hfin]
        rw [PoolM.borrow_modify_ne _ hcq]
        exact hb1
    · intro q qn hbq hmem
      by_cases hqq : q = cn.parent
      · -- q is the old parent: c was removed from its list
        subst hqq
        rw [hfin, PoolM.borrow_modify_self _ hq0b] at hbq
        injection hbq with hqn
        have hcount : countH c pq.children ≤ 1 := by
          by_cases hcm : c ∈ qn0.children
          · have := (consistent_spec hcons hbq0 hcm).1
            rw [hch0] at this
            omega
          · have : countH c qn0.children = 0 := countH_eq_zero_of_not_mem hcm
            rw [hch0] at this
            omega
        have hzero : countH c qn.children = 0 := by
          rw [← hqn]
          show countH c (removeFirst c pq.children) = 0
          rw [countH_removeFirst]
          omega
        have := countH_pos_of_mem hmem
        omega
      · -- q is not the old parent: its list is untouched and cannot hold c
        rw [hfin, PoolM.borrow_modify_ne _ hqq] at hbq
        have hmap := hchld1 q
        rw [hbq, Option.map_some'] at hmap
        cases hbq0' : s.nodes.borrow q with
        | none => rw [hbq0'] at hmap; exact Option.noConfusion hmap
        | some qn0' =>
          rw [hbq0', Option.map_some'] at hmap
          injection hmap with hmap'
          have hmem0 : c ∈ qn0'.children := by rw [← hmap']; exact hmem
          have hpar := (consistent_spec hcons hbq0' hmem0).2 cn hb
          exact hqq hpar.symm

/-- Evaluation of `link_nodes` when the child resolves after the unlink
and the parent resolves after the child's parent is reassigned. -/
theorem link_nodes_eq_push (s : SceneM) (c p : HandleM) {cn1 pn2 : NodeM}
    (h1 : (s.unlink_node c).nodes.borrow c = some cn1)
    (h2 : (((s.unlink_node c).nodes.modify c
      (fun n => { n with parent := p })).borrow p) = some pn2) :
    s.link_nodes c p =
      { s.unlink_node c with
        nodes := ((((s.unlink_node c).nodes.modify c
            (fun n => { n with parent := p })).modify p
          (fun n => { n with children := n.children ++ [c] }))) } := by
  show (match (s.unlink_node c).nodes.borrow c with
    | Option.none => s.unlink_node c
    | some _ =>
      match (((s.unlink_node c).nodes.modify c
          (fun n => { n with parent := p })).borrow p) with
      | Option.none =>
        { s.unlink_node c with
          nodes := (((s.unlink_node c).nodes.modify c
            (fun n => { n with parent := p }))) }
      | some _ =>
        { s.unlink_node c with
          nodes := ((((s.unlink_node c).nodes.modify c
              (fun n => { n with parent := p })).modify p
            (fun n => { n with children := n.children ++ [c] }))) }) =
    { s.unlink_node c with
      nodes := ((((s.unlink_node c).nodes.modify c
          (fun n => { n with parent := p })).modify p
        (fun n => { n with children := n.children ++ [c] }))) }
  rw [h1, h2]

/-- Claim C4: with valid handles in a consistent scene, after
`link_nodes(c, p)` the child's parent is `p` and `p`'s children list
contains `c` exactly once; after `unlink_node(c)` the node's parent is
`Handle::none()` and no children list contains it. -/
theorem claim_c4_link_unlink_invariant (s : SceneM) (c p : HandleM)
    (cn pn : NodeM) (hcons : s.Consistent)
    (hbc : s.nodes.borrow c = some cn) (hbp : s.nodes.borrow p = some pn) :
    (∃ cn', (s.link_nodes c p).nodes.borrow c = some cn' ∧ cn'.parent = p) ∧
    (∃ pn', (s.link_nodes c p).nodes.borrow p = some pn' ∧
      countH c pn'.children = 1) ∧
    (∃ cn'', (s.unlink_node c).nodes.borrow c = some cn'' ∧
      cn''.parent = HandleM.none) ∧
    (∀ q qn, (s.unlink_node c).nodes.borrow q = some qn → c ∉ qn.children) := by
  obtain ⟨⟨cn1, hb1, hpar1⟩, hnochild⟩ := unlink_spec s c cn hcons hbc
  have hb2c : (((s.unlink_node c).nodes.modify c
      (fun n => { n with parent := p })).borrow c) = some { cn1 with parent := p } :=
    PoolM.borrow_modify_self _ hb1
  -- p still resolves after unlink and the parent reassignment
  have hb2p : ∃ pn2, (((s.unlink_node c).nodes.modify c
      (fun n => { n with parent := p })).borrow p) = some pn2 := by
    have hiso : ((((s.unlink_node c).nodes.modify c
        (fun n => { n with parent := p })).borrow p)).isSome =
        (s.nodes.borrow p).isSome := by
      rw [PoolM.borrow_modify_isSome, SceneM.unlink_borrow_isSome]
    rw [hbp] at hiso
    cases hb : (((s.unlink_node c).nodes.modify c
        (fun n => { n with parent := p })).borrow p) with
    | none => rw [hb] at hiso; simp at hiso
    | some pn2 => exact ⟨pn2, rfl⟩
  obtain ⟨pn2, hb2p⟩ := hb2p
  have hlink := link_nodes_eq_push s c p hb1 hb2p
  -- c is not in pn2's children: pn2's list matches the post-unlink list
  have hzero : countH c pn2.children = 0 := by
    have hmap : ((((s.unlink_node c).nodes.modify c
        (fun n => { n with parent := p })).borrow p)).map NodeM.children =
        ((s.unlink_node c).nodes.borrow p).map NodeM.children :=
      PoolM.borrow_modify_map NodeM.children
        (fun n => { n with parent := p }) (fun v => rfl)
        (s.unlink_node c).nodes c p
    rw [hb2p, Option.map_some'] at hmap
    cases hbtp : (s.unlink_node c).nodes.borrow p with
    | none => rw [hbtp] at hmap; exact Option.noConfusion hmap
    | some qnt =>
      rw [hbtp, Option.map_some'] at hmap
      injection hmap with hmap'
      have : c ∉ qnt.children := hnochild p qnt hbtp
      rw [← hmap'] at this
      exact countH_eq_zero_of_not_mem this
  refine ⟨?_, ?_, ⟨cn1, hb1, hpar1⟩, hnochild⟩
  · -- child's parent is p after the push (which only edits children)
    have hmap : (((s.link_nodes c p).nodes.borrow c)).map NodeM.parent =
        some p := by
      rw [hlink]
      have := PoolM.borrow_modify_map NodeM.parent
        (fun n => { n with children := n.children ++ [c] }) (fun v => rfl)
        (((s.unlink_node c).nodes.modify c (fun n => { n with parent := p })))
        p c
      rw [this, hb2c, Option.map_some']
    cases hbf : (s.link_nodes c p).nodes.borrow c with
    | none => rw [hbf] at hmap; exact Option.noConfusion hmap
    | some cnf =>
      rw [hbf, Option.map_some'] at hmap
      injection hmap with hmap'
      exact ⟨cnf, rfl, hmap'⟩
  · refine ⟨{ pn2 with children := pn2.children ++ [c] }, ?_, ?_⟩
    · rw [hlink]
      exact PoolM.borrow_modify_self _ hb2p
    · show countH c (pn2.children ++ [c]) = 1
      rw [countH_append, hzero, countH_cons, if_pos rfl, countH_nil]

/-- The two-children demo scene: root `⟨0,0⟩` with linked children
`⟨1,0⟩` and `⟨2,0⟩`. -/
def demoScene2 : SceneM := (demoScene1.add_node (NodeM.new .base)).2

/-- Concrete check of C4 on the two-children demo scene, linking
`⟨1,0⟩` under `⟨2,0⟩`. -/
theorem claim_c4_witness :
    demoScene2.Consistent ∧
    demoScene2.nodes.borrow ⟨1, 0⟩ =
      some { NodeM.new .base with parent := ⟨0, 0⟩ } ∧
    demoScene2.nodes.borrow ⟨2, 0⟩ =
      some { NodeM.new .base with parent := ⟨0, 0⟩ } ∧
    ((∃ cn', (demoScene2.link_nodes ⟨1, 0⟩ ⟨2, 0⟩).nodes.borrow ⟨1, 0⟩ =
        some cn' ∧ cn'.parent = ⟨2, 0⟩) ∧
      (∃ pn', (demoScene2.link_nodes ⟨1, 0⟩ ⟨2, 0⟩).nodes.borrow ⟨2, 0⟩ =
        some pn' ∧ countH ⟨1, 0⟩ pn'.children = 1) ∧
      (∃ cn'', (demoScene2.unlink_node ⟨1, 0⟩).nodes.borrow ⟨1, 0⟩ =
        some cn'' ∧ cn''.parent = HandleM.none) ∧
      (∀ q qn, (demoScene2.unlink_node ⟨1, 0⟩).nodes.borrow q = some qn →
        (⟨1, 0⟩ : HandleM) ∉ qn.children)) := by
  have hcons : demoScene2.Consistent := by decide
  have hbc : demoScene2.nodes.borrow ⟨1, 0⟩ =
      some { NodeM.new .base with parent := ⟨0, 0⟩ } := rfl
  have hbp : demoScene2.nodes.borrow ⟨2, 0⟩ =
      some { NodeM.new .base with parent := ⟨0, 0⟩ } := rfl
  exact ⟨hcons, hbc, hbp,
    claim_c4_link_unlink_invariant demoScene2 ⟨1, 0⟩ ⟨2, 0⟩ _ _ hcons hbc hbp⟩

/-! ## Scene skeletons: the structure `update` never changes

`Scene::update` rewrites only cached data — `local_transform`,
`global_transform`, and camera view/projection matrices.  The *skeleton*
of a scene (slot layout, generations, parent/children linkage, and every
decomposed transform component) is invariant across the whole traversal;
this underpins the claims about skipped subtrees and termination. -/

theorem List.set_self' {l : List α} {i : Nat} {a : α}
    (h : l[i]? = some a) : l.set i a = l := by
  induction l generalizing i with
  | nil => rfl
  | cons x xs ih =>
    cases i with
    | zero =>
      simp only [List.getElem?_cons_zero, Option.some.injEq] at h
      rw [h]
      rfl
    | succ j =>
      simp only [List.getElem?_cons_succ] at h
      show x :: xs.set j a = x :: xs
      rw [ih h]

/-- Camera payload with its cached matrices normalised away. -/
def kindStatic : NodeKindM → NodeKindM
  | .camera c => .camera { c with view_matrix := 1, projection_matrix := 1 }
  | k => k

/-- The static part of a node: everything except the cached composed
transforms and camera matrices. -/
def NodeM.static (n : NodeM) : NodeM :=
  { n with kind := kindStatic n.kind, local_transform := 1, global_transform := 1 }

def slotStatic : SlotM NodeM → SlotM NodeM
  | .occupied g n => .occupied g n.static
  | .free g nx => .free g nx

/-- The scene skeleton: statically-mapped slots, the free-list head, and
the root handle. -/
def skeleton (s : SceneM) : List (SlotM NodeM) × Option Nat × HandleM :=
  (s.nodes.slots.map slotStatic, s.nodes.freeHead, s.root)

theorem static_record_global (n : NodeM) (g : M4) :
    ({ n with global_transform := g } : NodeM).static = n.static := rfl

theorem static_camAdjust (P : Prims) (aspect : ℚ) (m : NodeM) :
    (camAdjust P aspect m).static = m.static := by
  unfold camAdjust
  cases hk : m.kind with
  | camera c =>
    show ({ m with kind := _ } : NodeM).static = m.static
    unfold NodeM.static
    rw [hk]
    rfl
  | base => rfl
  | light l => rfl
  | mesh mm => rfl
  | custom => rfl

theorem static_calc (P : Prims) {n n' : NodeM}
    (hc : n.calculate_local_transform P = some n') : n'.static = n.static := by
  rw [calc_shape P n hc]
  rfl

theorem static_children (n : NodeM) : n.static.children = n.children := rfl

theorem static_parent (n : NodeM) : n.static.parent = n.parent := rfl

/-- A modification that keeps the resolved node's static part keeps the
skeleton. -/
theorem skeleton_modify_at (s : SceneM) (h : HandleM) (f : NodeM → NodeM)
    {n : NodeM} (hb : s.nodes.borrow h = some n)
    (hf : (f n).static = n.static) :
    skeleton { s with nodes := (s.nodes.modify h f) } = skeleton s := by
  have hocc := PoolM.borrow_eq_some_iff.1 hb
  have hmod : s.nodes.modify h f =
      ⟨s.nodes.slots.set h.index (.occupied h.generation (f n)), s.nodes.freeHead⟩ := by
    simp only [PoolM.modify, hocc]
    rw [if_pos trivial]
  rw [hmod]
  unfold skeleton
  show (((s.nodes.slots.set h.index (.occupied h.generation (f n))).map slotStatic),
      s.nodes.freeHead, s.root) =
    (s.nodes.slots.map slotStatic, s.nodes.freeHead, s.root)
  rw [List.map_set]
  have hmem : (s.nodes.slots.map slotStatic)[h.index]? =
      some (slotStatic (.occupied h.generation n)) := by
    rw [List.getElem?_map, hocc, Option.map_some']
  have : slotStatic (.occupied h.generation (f n)) =
      slotStatic (.occupied h.generation n) := by
    show SlotM.occupied h.generation (f n).static =
      SlotM.occupied h.generation n.static
    rw [hf]
  rw [this, List.set_self' hmem]

/-- `updateStep` preserves the skeleton. -/
theorem updateStep_skeleton (P : Prims) (aspect : ℚ) (s : SceneM)
    (h : HandleM) {s' : SceneM} {pushed : List HandleM}
    (hstep : updateStep P aspect s h = some (s', pushed)) :
    skeleton s' = skeleton s := by
  cases hb : s.nodes.borrow h with
  | none =>
    rw [updateStep_skip P aspect s h hb] at hstep
    injection hstep with hp
    rw [Prod.mk.injEq] at hp
    rw [← hp.1]
  | some n =>
    cases hc : n.calculate_local_transform P with
    | none =>
      have : updateStep P aspect s h = Option.none := by
        simp only [updateStep, hb, hc]
      rw [this] at hstep
      exact Option.noConfusion hstep
    | some n' =>
      rw [updateStep_some P aspect s h hb hc] at hstep
      injection hstep with hp
      rw [Prod.mk.injEq] at hp
      rw [← hp.1]
      exact skeleton_modify_at s h _ hb
        (by rw [static_camAdjust, static_record_global, static_calc P hc])

/-- Skeleton-equal scenes resolve every handle to statically equal
nodes. -/
theorem borrow_static_of_skeleton {s t : SceneM}
    (hsk : skeleton s = skeleton t) (h : HandleM) :
    (s.nodes.borrow h).map NodeM.static = (t.nodes.borrow h).map NodeM.static := by
  have hslots : s.nodes.slots.map slotStatic = t.nodes.slots.map slotStatic :=
    congrArg Prod.fst hsk
  have hidx : (s.nodes.slots[h.index]?).map slotStatic =
      (t.nodes.slots[h.index]?).map slotStatic := by
    rw [← List.getElem?_map, ← List.getElem?_map, hslots]
  unfold PoolM.borrow
  cases hs1 : s.nodes.slots[h.index]? with
  | none =>
    rw [hs1] at hidx
    cases ht1 : t.nodes.slots[h.index]? with
    | none => rfl
    | some sl2 => rw [ht1] at hidx; exact Option.noConfusion hidx
  | some sl1 =>
    rw [hs1] at hidx
    cases ht1 : t.nodes.slots[h.index]? with
    | none => rw [ht1] at hidx; exact Option.noConfusion hidx
    | some sl2 =>
      rw [ht1, Option.map_some', Option.map_some'] at hidx
      injection hidx with hsl
      cases sl1 with
      | free g1 nx1 =>
        cases sl2 with
        | free g2 nx2 => rfl
        | occupied g2 n2 => exact SlotM.noConfusion hsl
      | occupied g1 n1 =>
        cases sl2 with
        | free g2 nx2 => exact SlotM.noConfusion hsl
        | occupied g2 n2 =>
          have hg : g1 = g2 := by injection hsl
          have hn : n1.static = n2.static := by injection hsl
          rw [hg]
          show Option.map NodeM.static
              (if g2 = h.generation then some n1 else Option.none) =
            Option.map NodeM.static
              (if g2 = h.generation then some n2 else Option.none)
          by_cases hgen : g2 = h.generation
          · rw [if_pos hgen, if_pos hgen, Option.map_some', Option.map_some', hn]
          · rw [if_neg hgen, if_neg hgen]

theorem borrow_of_skeleton_static {s t : SceneM}
    (hsk : skeleton s = skeleton t) {h : HandleM} {N : NodeM}
    (hb : (t.nodes.borrow h).map NodeM.static = some N) :
    ∃ n, s.nodes.borrow h = some n ∧ n.static = N := by
  have hmap := borrow_static_of_skeleton hsk h
  rw [hb] at hmap
  cases hs : s.nodes.borrow h with
  | none => rw [hs] at hmap; exact Option.noConfusion hmap
  | some n =>
    rw [hs, Option.map_some'] at hmap
    injection hmap with hn
    exact ⟨n, rfl, hn⟩

/-! ## Live reachability through children lists -/

/-- The children list a handle resolves to. -/
def childrenOf (s : SceneM) (h : HandleM) : Option (List HandleM) :=
  (s.nodes.borrow h).map NodeM.children

/-- A chain of live children steps from `h` to `d`: each intermediate
handle resolves and lists the next handle among its children. -/
def chainOk (s : SceneM) : HandleM → List HandleM → HandleM → Prop
  | h, [], d => h = d
  | h, x :: rest, d =>
    (∃ cl, childrenOf s h = some cl ∧ x ∈ cl) ∧ chainOk s x rest d

/-- `d` is reachable from `h` through live children links. -/
def ReachLive (s : SceneM) (h d : HandleM) : Prop := ∃ path, chainOk s h path d

theorem chainOk_nil (s : SceneM) (h d : HandleM) :
    chainOk s h [] d ↔ h = d := Iff.rfl

theorem chainOk_cons (s : SceneM) (h x d : HandleM) (rest : List HandleM) :
    chainOk s h (x :: rest) d ↔
      (∃ cl, childrenOf s h = some cl ∧ x ∈ cl) ∧ chainOk s x rest d := Iff.rfl

theorem ReachLive.refl (s : SceneM) (h : HandleM) : ReachLive s h h := ⟨[], rfl⟩

theorem ReachLive.head {s : SceneM} {h x d : HandleM} {cl : List HandleM}
    (hcl : childrenOf s h = some cl) (hx : x ∈ cl)
    (hr : ReachLive s x d) : ReachLive s h d := by
  obtain ⟨p, hp⟩ := hr
  exact ⟨x :: p, ⟨cl, hcl, hx⟩, hp⟩

theorem childrenOf_of_skeleton {s t : SceneM}
    (hsk : skeleton s = skeleton t) (h : HandleM) :
    childrenOf s h = childrenOf t h := by
  have hmap := borrow_static_of_skeleton hsk h
  unfold childrenOf
  have h1 : ∀ (o : Option NodeM),
      o.map NodeM.children = (o.map NodeM.static).map NodeM.children := by
    intro o
    cases o with
    | none => rfl
    | some n => rfl
  rw [h1 (s.nodes.borrow h), h1 (t.nodes.borrow h), hmap]

theorem chainOk_congr {s t : SceneM} (hsk : skeleton s = skeleton t) :
    ∀ (p : List HandleM) (h d : HandleM), chainOk s h p d ↔ chainOk t h p d := by
  intro p
  induction p with
  | nil => intro h d; exact Iff.rfl
  | cons x rest ih =>
    intro h d
    rw [chainOk_cons, chainOk_cons, childrenOf_of_skeleton hsk, ih x d]

theorem ReachLive_congr {s t : SceneM} (hsk : skeleton s = skeleton t)
    (h d : HandleM) : ReachLive s h d ↔ ReachLive t h d := by
  unfold ReachLive
  constructor
  · rintro ⟨p, hp⟩; exact ⟨p, (chainOk_congr hsk p h d).1 hp⟩
  · rintro ⟨p, hp⟩; exact ⟨p, (chainOk_congr hsk p h d).2 hp⟩

/-! ## The update loop touches only reachable nodes -/

theorem updLoop_panic_shape (P : Prims) (aspect : ℚ) (s : SceneM)
    (h : HandleM) {n : NodeM} (hb : s.nodes.borrow h = some n)
    (hc : n.calculate_local_transform P = Option.none) :
    updateStep P aspect s h = Option.none := by
  simp only [updateStep, hb, hc]

/-- If no stack entry can reach `d` through live children links, a
completed update loop leaves `d`'s slot contents untouched. -/
theorem updLoop_untouched (P : Prims) (aspect : ℚ) (d : HandleM) :
    ∀ (fuel : Nat) (stack : List HandleM) (s : SceneM),
      (∀ h ∈ stack, ¬ ReachLive s h d) →
      ∀ out, updLoop P aspect fuel s stack = .done out →
        out.nodes.borrow d = s.nodes.borrow d := by
  intro fuel
  induction fuel with
  | zero =>
    intro stack s hns out hdone
    cases stack with
    | nil => injection hdone with he; rw [← he]
    | cons h rest => exact LoopOut.noConfusion hdone
  | succ fuel ih =>
    intro stack s hns out hdone
    cases stack with
    | nil =>
      have : updLoop P aspect (fuel + 1) s [] = .done s := rfl
      rw [this] at hdone
      injection hdone with he
      rw [← he]
    | cons h rest =>
      cases hb : s.nodes.borrow h with
      | none =>
        have hloop : updLoop P aspect (fuel + 1) s (h :: rest) =
            updLoop P aspect fuel s rest := by
          show (match updateStep P aspect s h with
            | Option.none => LoopOut.panic
            | some (s', pushed) => updLoop P aspect fuel s' (pushed ++ rest)) =
            updLoop P aspect fuel s rest
          rw [updateStep_skip P aspect s h hb]
          rfl
        rw [hloop] at hdone
        exact ih rest s (fun h' hm => hns h' (List.mem_cons_of_mem h hm)) out hdone
      | some n =>
        cases hc : n.calculate_local_transform P with
        | none =>
          have hloop : updLoop P aspect (fuel + 1) s (h :: rest) = .panic := by
            show (match updateStep P aspect s h with
              | Option.none => LoopOut.panic
              | some (s', pushed) => updLoop P aspect fuel s' (pushed ++ rest)) =
              LoopOut.panic
            rw [updLoop_panic_shape P aspect s h hb hc]
          rw [hloop] at hdone
          exact LoopOut.noConfusion hdone
        | some n' =>
          have hstep := updateStep_some P aspect s h hb hc
          have hloop : updLoop P aspect (fuel + 1) s (h :: rest) =
              updLoop P aspect fuel
                { s with nodes := (s.nodes.modify h (fun _ => camAdjust P aspect
                  { n' with global_transform :=
                    (n'.local_transform * parentLocalAfter s h n') })) }
                (n'.children.reverse ++ rest) := by
            show (match updateStep P aspect s h with
              | Option.none => LoopOut.panic
              | some (s', pushed) => updLoop P aspect fuel s' (pushed ++ rest)) = _
            rw [hstep]
          rw [hloop] at hdone
          have hsk : skeleton { s with nodes := (s.nodes.modify h
              (fun _ => camAdjust P aspect { n' with global_transform :=
                (n'.local_transform * parentLocalAfter s h n') })) } = skeleton s :=
            updateStep_skeleton P aspect s h hstep
          have hne : d ≠ h := by
            intro he
            exact hns h (List.mem_cons_self h rest) (he ▸ ReachLive.refl s h)
          have hbd : ({ s with nodes := (s.nodes.modify h
              (fun _ => camAdjust P aspect { n' with global_transform :=
                (n'.local_transform * parentLocalAfter s h n') })) } :
              SceneM).nodes.borrow d = s.nodes.borrow d :=
            PoolM.borrow_modify_ne _ hne
          have hstack : ∀ h' ∈ n'.children.reverse ++ rest,
              ¬ ReachLive { s with nodes := (s.nodes.modify h
                (fun _ => camAdjust P aspect { n' with global_transform :=
                  (n'.local_transform * parentLocalAfter s h n') })) } h' d := by
            intro h' hm
            rw [ReachLive_congr hsk]
            rcases List.mem_append.1 hm with hch | hrest
            · intro hr
              have hch' : h' ∈ n'.children := List.mem_reverse.1 hch
              have hchn : n'.children = n.children := by
                rw [calc_shape P n hc]
              rw [hchn] at hch'
              have : ReachLive s h d := ReachLive.head
                (by unfold childrenOf; rw [hb, Option.map_some']) hch' hr
              exact hns h (List.mem_cons_self h rest) this
            · exact hns h' (List.mem_cons_of_mem h hrest)
          have := ih (n'.children.reverse ++ rest) _ hstack out hdone
          rw [this, hbd]

/-- A completed update loop preserves the skeleton. -/
theorem updLoop_skeleton (P : Prims) (aspect : ℚ) :
    ∀ (fuel : Nat) (stack : List HandleM) (s : SceneM) (out : SceneM),
      updLoop P aspect fuel s stack = .done out → skeleton out = skeleton s := by
  intro fuel
  induction fuel with
  | zero =>
    intro stack s out hdone
    cases stack with
    | nil => injection hdone with he; rw [← he]
    | cons h rest => exact LoopOut.noConfusion hdone
  | succ fuel ih =>
    intro stack s out hdone
    cases stack with
    | nil =>
      have : updLoop P aspect (fuel + 1) s [] = .done s := rfl
      rw [this] at hdone
      injection hdone with he
      rw [← he]
    | cons h rest =>
      cases hstep : updateStep P aspect s h with
      | none =>
        have hloop : updLoop P aspect (fuel + 1) s (h :: rest) = .panic := by
          show (match updateStep P aspect s h with
            | Option.none => LoopOut.panic
            | some (s', pushed) => updLoop P aspect fuel s' (pushed ++ rest)) =
            LoopOut.panic
          rw [hstep]
        rw [hloop] at hdone
        exact LoopOut.noConfusion hdone
      | some r =>
        obtain ⟨s', pushed⟩ := r
        have hloop : updLoop P aspect (fuel + 1) s (h :: rest) =
            updLoop P aspect fuel s' (pushed ++ rest) := by
          show (match updateStep P aspect s h with
            | Option.none => LoopOut.panic
            | some (s', pushed) => updLoop P aspect fuel s' (pushed ++ rest)) = _
          rw [hstep]
        rw [hloop] at hdone
        rw [ih (pushed ++ rest) s' out hdone]
        exact updateStep_skeleton P aspect s h hstep

theorem skeleton_root {s t : SceneM} (hsk : skeleton s = skeleton t) :
    s.root = t.root :=
  congrArg (fun x => x.2.2) hsk

/-- Across any sequence of completed updates, a node unreachable from
the root keeps its slot contents. -/
theorem runUpdates_untouched (P : Prims) (d : HandleM) :
    ∀ (l : List (Nat × ℚ)) (s : SceneM), (¬ ReachLive s s.root d) →
      ∀ out, runUpdates P l s = some out →
        out.nodes.borrow d = s.nodes.borrow d := by
  intro l
  induction l with
  | nil =>
    intro s hr out hout
    injection hout with he
    rw [← he]
  | cons fa rest ih =>
    obtain ⟨fuel, aspect⟩ := fa
    intro s hr out hout
    cases hupd : SceneM.update P aspect fuel s with
    | panic =>
      unfold runUpdates at hout
      rw [hupd] at hout
      exact Option.noConfusion hout
    | fuelOut =>
      unfold runUpdates at hout
      rw [hupd] at hout
      exact Option.noConfusion hout
    | done s2 =>
      unfold runUpdates at hout
      rw [hupd] at hout
      have hsk : skeleton s2 = skeleton s :=
        updLoop_skeleton P aspect fuel [s.root] s s2 hupd
      have hroot : s2.root = s.root := skeleton_root hsk
      have hr2 : ¬ ReachLive s2 s2.root d := by
        rw [hroot, ReachLive_congr hsk]
        exact hr
      have hb2 : s2.nodes.borrow d = s.nodes.borrow d :=
        updLoop_untouched P aspect d fuel [s.root] s
          (fun h hm => by
            rcases List.mem_singleton.1 hm with rfl
            exact hr) s2 hupd
      rw [ih s2 hr2 out hout, hb2]

/-! ## Claim C9: a freed node's subtree is silently skipped -/

/-- Claim C9: after `remove_node` frees a node whose handle is still
listed by its old parent, the update traversal pops the stale handle,
fails to borrow it, pushes nothing (a pure no-op step), and therefore
every node reachable only through the freed node — its whole subtree —
keeps its slot contents, `local_transform` and `global_transform`
included, across every subsequent completed `update` call. -/
theorem claim_c9_removed_subtree_skipped (P : Prims) (aspect : ℚ)
    (s : SceneM) (r d : HandleM) (n : NodeM)
    (hbr : s.nodes.borrow r = some n)
    (hreach : ¬ ReachLive (s.remove_node r) s.root d) :
    (s.remove_node r).nodes.borrow r = Option.none ∧
    updateStep P aspect (s.remove_node r) r = some (s.remove_node r, []) ∧
    (∀ l out, runUpdates P l (s.remove_node r) = some out →
      out.nodes.borrow d = (s.remove_node r).nodes.borrow d) := by
  have hfree : (s.remove_node r).nodes.borrow r = Option.none :=
    PoolM.borrow_free_self hbr
  refine ⟨hfree, updateStep_skip P aspect (s.remove_node r) r hfree, ?_⟩
  intro l out hout
  have hroot : (s.remove_node r).root = s.root := rfl
  exact runUpdates_untouched P d l (s.remove_node r) (hroot ▸ hreach) out hout

/-- The chain demo scene: root `⟨0,0⟩` → `⟨1,0⟩` → `⟨2,0⟩`. -/
def demoChain : SceneM := demoScene2.link_nodes ⟨2, 0⟩ ⟨1, 0⟩

/-- Concrete check of C9 on the chain scene with the middle node freed:
its child `⟨2,0⟩` is unreachable afterwards and survives any update
sequence unchanged. -/
theorem claim_c9_witness :
    demoChain.nodes.borrow ⟨1, 0⟩ =
      some { NodeM.new .base with parent := ⟨0, 0⟩, children := [⟨2, 0⟩] } ∧
    ((demoChain.remove_node ⟨1, 0⟩).nodes.borrow ⟨1, 0⟩ = Option.none ∧
      updateStep trivPrims 1 (demoChain.remove_node ⟨1, 0⟩) ⟨1, 0⟩ =
        some (demoChain.remove_node ⟨1, 0⟩, []) ∧
      (∀ l out, runUpdates trivPrims l (demoChain.remove_node ⟨1, 0⟩) = some out →
        out.nodes.borrow ⟨2, 0⟩ =
          (demoChain.remove_node ⟨1, 0⟩).nodes.borrow ⟨2, 0⟩)) := by
  have hbr : demoChain.nodes.borrow ⟨1, 0⟩ =
      some { NodeM.new .base with parent := ⟨0, 0⟩, children := [⟨2, 0⟩] } := rfl
  have hreach : ¬ ReachLive (demoChain.remove_node ⟨1, 0⟩) demoChain.root ⟨2, 0⟩ := by
    rintro ⟨path, hchain⟩
    cases path with
    | nil =>
      have he : demoChain.root = (⟨2, 0⟩ : HandleM) := hchain
      exact absurd he (by decide)
    | cons x p =>
      obtain ⟨⟨cl, hcl, hx⟩, hrest⟩ := hchain
      have hcl0 : childrenOf (demoChain.remove_node ⟨1, 0⟩) ⟨0, 0⟩ =
          some [⟨1, 0⟩] := rfl
      have hclroot : childrenOf (demoChain.remove_node ⟨1, 0⟩) demoChain.root =
          some cl := hcl
      rw [show demoChain.root = (⟨0, 0⟩ : HandleM) from rfl, hcl0] at hclroot
      injection hclroot with hcl'
      rw [← hcl'] at hx
      rcases List.mem_singleton.1 hx with rfl
      cases p with
      | nil =>
        have he : (⟨1, 0⟩ : HandleM) = (⟨2, 0⟩ : HandleM) := hrest
        exact absurd he (by decide)
      | cons y p' =>
        obtain ⟨⟨cl2, hcl2, hy⟩, hrest2⟩ := hrest
        have : childrenOf (demoChain.remove_node ⟨1, 0⟩) ⟨1, 0⟩ =
            Option.none := rfl
        rw [this] at hcl2
        exact Option.noConfusion hcl2
  exact ⟨hbr, claim_c9_removed_subtree_skipped trivPrims 1 demoChain ⟨1, 0⟩ ⟨2, 0⟩
    _ hbr hreach⟩

/-! ## Claim C10: termination of the update traversal -/

/-- Children-list length of a slot's occupant. -/
def slotChildCount : SlotM NodeM → Nat
  | .occupied _ n => n.children.length
  | _ => 0

/-- Largest children-list length over all occupied slots. -/
def maxChildren (s : SceneM) : Nat :=
  (s.nodes.slots.map slotChildCount).foldr max 0

theorem le_foldr_max (l : List Nat) (i : Nat) (x : Nat)
    (h : l[i]? = some x) : x ≤ l.foldr max 0 := by
  induction l generalizing i with
  | nil => simp at h
  | cons y ys ih =>
    cases i with
    | zero =>
      simp only [List.getElem?_cons_zero, Option.some.injEq] at h
      subst h
      exact le_max_left _ _
    | succ j =>
      simp only [List.getElem?_cons_succ] at h
      exact le_trans (ih j h) (le_max_right y (ys.foldr max 0))

theorem children_le_maxChildren {s : SceneM} {h : HandleM} {n : NodeM}
    (hb : s.nodes.borrow h = some n) : n.children.length ≤ maxChildren s := by
  have hocc := PoolM.borrow_eq_some_iff.1 hb
  have hm : (s.nodes.slots.map slotChildCount)[h.index]? =
      some n.children.length := by
    rw [List.getElem?_map, hocc, Option.map_some']
    rfl
  exact le_foldr_max _ h.index _ hm

/-- Weight of a traversal stack: each entry counts `(B+1)^rank`. -/
def stackMeasure (B : Nat) (rank : HandleM → Nat) (stack : List HandleM) : Nat :=
  (stack.map fun h => (B + 1) ^ rank h).sum

theorem stackMeasure_cons (B : Nat) (rank : HandleM → Nat) (h : HandleM)
    (rest : List HandleM) :
    stackMeasure B rank (h :: rest) =
      (B + 1) ^ rank h + stackMeasure B rank rest := by
  unfold stackMeasure
  rw [List.map_cons, List.sum_cons]

theorem stackMeasure_append (B : Nat) (rank : HandleM → Nat)
    (l r : List HandleM) :
    stackMeasure B rank (l ++ r) = stackMeasure B rank l + stackMeasure B rank r := by
  unfold stackMeasure
  rw [List.map_append, List.sum_append]

theorem stackMeasure_reverse (B : Nat) (rank : HandleM → Nat)
    (l : List HandleM) :
    stackMeasure B rank l.reverse = stackMeasure B rank l := by
  unfold stackMeasure
  rw [List.map_reverse, List.sum_reverse]

/-- Children all of strictly smaller rank contribute strictly less than
their parent's weight, provided the list is no longer than `B`. -/
theorem pow_sum_lt (B : Nat) (rank : HandleM → Nat) (R : Nat)
    (l : List HandleM) (hr : ∀ c ∈ l, rank c < R) (hl : l.length ≤ B) :
    stackMeasure B rank l < (B + 1) ^ R := by
  cases l with
  | nil =>
    show (0 : Nat) < (B + 1) ^ R
    exact Nat.pos_pow_of_pos R (by omega)
  | cons c0 cs =>
    have hR : 1 ≤ R := by
      have := hr c0 (List.mem_cons_self c0 cs)
      omega
    obtain ⟨R', rfl⟩ : ∃ R', R = R' + 1 := ⟨R - 1, by omega⟩
    have hbound : ∀ x ∈ (c0 :: cs).map (fun c => (B + 1) ^ rank c),
        x ≤ (B + 1) ^ R' := by
      intro x hx
      obtain ⟨c, hcmem, rfl⟩ := List.mem_map.1 hx
      exact Nat.pow_le_pow_right (by omega) (by have := hr c hcmem; omega)
    have hsum := List.sum_le_card_nsmul _ _ hbound
    rw [List.length_map, smul_eq_mul] at hsum
    have hmul : (c0 :: cs).length * (B + 1) ^ R' ≤ B * (B + 1) ^ R' :=
      Nat.mul_le_mul_right _ hl
    have hpow : 0 < (B + 1) ^ R' := Nat.pos_pow_of_pos R' (by omega)
    have hlt : B * (B + 1) ^ R' < (B + 1) * (B + 1) ^ R' :=
      (mul_lt_mul_right hpow).2 (by omega)
    have hfin : (B + 1) * (B + 1) ^ R' = (B + 1) ^ (R' + 1) := by
      rw [pow_succ]
      exact (mul_comm _ _)
    show ((c0 :: cs).map fun h => (B + 1) ^ rank h).sum < (B + 1) ^ (R' + 1)
    omega

/-- Extending a live chain by one child step at the end. -/
theorem chainOk_snoc {s : SceneM} :
    ∀ (p : List HandleM) (h d c : HandleM) (cl : List HandleM),
      chainOk s h p d → childrenOf s d = some cl → c ∈ cl →
      chainOk s h (p ++ [c]) c := by
  intro p
  induction p with
  | nil =>
    intro h d c cl hch hcl hc
    have he : h = d := hch
    subst he
    exact ⟨⟨cl, hcl, hc⟩, rfl⟩
  | cons x rest ih =>
    intro h d c cl hch hcl hc
    obtain ⟨hstep, hrest⟩ := hch
    exact ⟨hstep, ih x d c cl hrest hcl hc⟩

theorem ReachLive.snoc {s : SceneM} {r d c : HandleM} {cl : List HandleM}
    (hr : ReachLive s r d) (hcl : childrenOf s d = some cl) (hc : c ∈ cl) :
    ReachLive s r c := by
  obtain ⟨p, hp⟩ := hr
  exact ⟨p ++ [c], chainOk_snoc p r d c cl hp hcl hc⟩

/-- With a rank function decreasing along children links of reachable
live nodes, the update loop cannot run out of fuel once the fuel
exceeds the stack weight. -/
theorem updLoop_terminates (P : Prims) (aspect : ℚ) (s : SceneM)
    (rank : HandleM → Nat)
    (hrank : ∀ h nh, ReachLive s s.root h → s.nodes.borrow h = some nh →
      ∀ c ∈ nh.children, rank c < rank h) :
    ∀ (fuel : Nat) (stack : List HandleM) (s' : SceneM),
      skeleton s' = skeleton s →
      (∀ h ∈ stack, ReachLive s s.root h) →
      stackMeasure (maxChildren s) rank stack < fuel →
      updLoop P aspect fuel s' stack ≠ .fuelOut := by
  intro fuel
  induction fuel with
  | zero =>
    intro stack s' hsk hre hm
    exact absurd hm (Nat.not_lt_zero _)
  | succ fuel ih =>
    intro stack s' hsk hre hm
    cases stack with
    | nil =>
      have : updLoop P aspect (fuel + 1) s' [] = .done s' := rfl
      rw [this]
      exact fun hcon => LoopOut.noConfusion hcon
    | cons h rest =>
      cases hb : s'.nodes.borrow h with
      | none =>
        have hloop : updLoop P aspect (fuel + 1) s' (h :: rest) =
            updLoop P aspect fuel s' rest := by
          show (match updateStep P aspect s' h with
            | Option.none => LoopOut.panic
            | some (s2, pushed) => updLoop P aspect fuel s2 (pushed ++ rest)) =
            updLoop P aspect fuel s' rest
          rw [updateStep_skip P aspect s' h hb]
          rfl
        rw [hloop]
        have hp : 0 < (maxChildren s + 1) ^ rank h :=
          Nat.pos_pow_of_pos _ (by omega)
        rw [stackMeasure_cons] at hm
        exact ih rest s' hsk (fun h' hm' => hre h' (List.mem_cons_of_mem h hm'))
          (by omega)
      | some n =>
        cases hc : n.calculate_local_transform P with
        | none =>
          have hloop : updLoop P aspect (fuel + 1) s' (h :: rest) = .panic := by
            show (match updateStep P aspect s' h with
              | Option.none => LoopOut.panic
              | some (s2, pushed) => updLoop P aspect fuel s2 (pushed ++ rest)) =
              LoopOut.panic
            rw [updLoop_panic_shape P aspect s' h hb hc]
          rw [hloop]
          exact fun hcon => LoopOut.noConfusion hcon
        | some n' =>
          have hstep := updateStep_some P aspect s' h hb hc
          have hloop : updLoop P aspect (fuel + 1) s' (h :: rest) =
              updLoop P aspect fuel
                { s' with nodes := (s'.nodes.modify h (fun _ => camAdjust P aspect
                  { n' with global_transform :=
                    (n'.local_transform * parentLocalAfter s' h n') })) }
                (n'.children.reverse ++ rest) := by
            show (match updateStep P aspect s' h with
              | Option.none => LoopOut.panic
              | some (s2, pushed) => updLoop P aspect fuel s2 (pushed ++ rest)) = _
            rw [hstep]
          rw [hloop]
          -- the node as the original scene sees it
          have hmap := borrow_static_of_skeleton hsk h
          rw [hb, Option.map_some'] at hmap
          have hs0 : ∃ n0, s.nodes.borrow h = some n0 ∧ n0.static = n.static := by
            cases hb0 : s.nodes.borrow h with
            | none => rw [hb0] at hmap; exact Option.noConfusion hmap
            | some n0 =>
              rw [hb0, Option.map_some'] at hmap
              injection hmap with hmap'
              exact ⟨n0, rfl, hmap'.symm⟩
          obtain ⟨n0, hb0, hst0⟩ := hs0
          have hch0 : n0.children = n.children := by
            rw [← static_children n0, hst0, static_children]
          have hreh : ReachLive s s.root h := hre h (List.mem_cons_self h rest)
          have hrankch : ∀ c ∈ n.children, rank c < rank h := by
            intro c hcm
            exact hrank h n0 hreh hb0 c (by rw [hch0]; exact hcm)
          have hlench : n.children.length ≤ maxChildren s := by
            rw [← hch0]
            exact children_le_maxChildren hb0
          have hchn' : n'.children = n.children := by
            rw [calc_shape P n hc]
          have hsk2 : skeleton { s' with nodes := (s'.nodes.modify h
              (fun _ => camAdjust P aspect { n' with global_transform :=
                (n'.local_transform * parentLocalAfter s' h n') })) } = skeleton s := by
            rw [updateStep_skeleton P aspect s' h hstep]
            exact hsk
          have hre2 : ∀ h' ∈ n'.children.reverse ++ rest,
              ReachLive s s.root h' := by
            intro h' hm'
            rcases List.mem_append.1 hm' with hch | hrest
            · have hch' : h' ∈ n.children := by
                rw [← hchn']
                exact List.mem_reverse.1 hch
              have hclroot : childrenOf s h = some n0.children := by
                unfold childrenOf
                rw [hb0, Option.map_some']
              exact ReachLive.snoc hreh hclroot (by rw [hch0]; exact hch')
            · exact hre h' (List.mem_cons_of_mem h hrest)
          have hsumlt : stackMeasure (maxChildren s) rank n'.children <
              (maxChildren s + 1) ^ rank h := by
            rw [hchn']
            exact pow_sum_lt (maxChildren s) rank (rank h) n.children
              hrankch hlench
          have hm2 : stackMeasure (maxChildren s) rank
              (n'.children.reverse ++ rest) < fuel := by
            rw [stackMeasure_append, stackMeasure_reverse]
            rw [stackMeasure_cons] at hm
            omega
          exact ih (n'.children.reverse ++ rest) _ hsk2 hre2 hm2

/-! ### A cycle built with link_nodes makes the loop run forever -/

/-- `link_nodes` applied to make the root a child of its own child:
root `⟨0,0⟩` lists `⟨1,0⟩`, which lists `⟨0,0⟩` back. -/
def cyclicScene : SceneM := demoScene1.link_nodes ⟨0, 0⟩ ⟨1, 0⟩

theorem static_post_rotation (n : NodeM) : n.static.post_rotation = n.post_rotation := rfl

theorem static_rotation_pivot (n : NodeM) : n.static.rotation_pivot = n.rotation_pivot := rfl

theorem static_scaling_pivot (n : NodeM) : n.static.scaling_pivot = n.scaling_pivot := rfl

/-- On any scene with the cyclic skeleton, the traversal loop started at
either cycle member always exhausts its fuel. -/
theorem cyclic_loop (P : Prims) (aspect : ℚ) :
    ∀ (fuel : Nat) (s' : SceneM), skeleton s' = skeleton cyclicScene →
      ∀ h, (h = (⟨0, 0⟩ : HandleM) ∨ h = (⟨1, 0⟩ : HandleM)) →
      updLoop P aspect fuel s' [h] = .fuelOut := by
  intro fuel
  induction fuel with
  | zero =>
    intro s' hsk h hcase
    rfl
  | succ fuel ih =>
    intro s' hsk h hcase
    have hstatic : (cyclicScene.nodes.borrow h).map NodeM.static =
        some (NodeM.static { NodeM.new .base with
          parent := (if h.index = 0 then ⟨1, 0⟩ else ⟨0, 0⟩),
          children := [if h.index = 0 then ⟨1, 0⟩ else ⟨0, 0⟩] }) := by
      rcases hcase with rfl | rfl
      · rfl
      · rfl
    obtain ⟨n, hb, hst⟩ := borrow_of_skeleton_static hsk hstatic
    have hpost : n.post_rotation = QuatM.id := by
      rw [← static_post_rotation n, hst]
      rfl
    have hrp : n.rotation_pivot = V3.zero := by
      rw [← static_rotation_pivot n, hst]
      rfl
    have hsp : n.scaling_pivot = V3.zero := by
      rw [← static_scaling_pivot n, hst]
      rfl
    have hcalc := calc_isSome_of_default_inv P n hpost hrp hsp
    obtain ⟨n', hc⟩ := Option.isSome_iff_exists.1 hcalc
    have hchn : n.children = [if h.index = 0 then ⟨1, 0⟩ else ⟨0, 0⟩] := by
      rw [← static_children n, hst]
      rfl
    have hchn' : n'.children = [if h.index = 0 then ⟨1, 0⟩ else ⟨0, 0⟩] := by
      rw [calc_shape P n hc]
      exact hchn
    have hstep := updateStep_some P aspect s' h hb hc
    have hloop : updLoop P aspect (fuel + 1) s' [h] =
        updLoop P aspect fuel
          { s' with nodes := (s'.nodes.modify h (fun _ => camAdjust P aspect
            { n' with global_transform :=
              (n'.local_transform * parentLocalAfter s' h n') })) }
          (n'.children.reverse ++ []) := by
      show (match updateStep P aspect s' h with
        | Option.none => LoopOut.panic
        | some (s2, pushed) => updLoop P aspect fuel s2 (pushed ++ [])) = _
      rw [hstep]
    have hstack : n'.children.reverse ++ ([] : List HandleM) =
        [if h.index = 0 then (⟨1, 0⟩ : HandleM) else ⟨0, 0⟩] := by
      rw [hchn']
      simp
    rw [hloop, hstack]
    have hsk2 : skeleton { s' with nodes := (s'.nodes.modify h
        (fun _ => camAdjust P aspect { n' with global_transform :=
          (n'.local_transform * parentLocalAfter s' h n') })) } =
        skeleton cyclicScene := by
      rw [updateStep_skeleton P aspect s' h hstep]
      exact hsk
    rcases hcase with rfl | rfl
    · rw [show (if ((⟨0, 0⟩ : HandleM)).index = 0 then (⟨1, 0⟩ : HandleM)
          else ⟨0, 0⟩) = (⟨1, 0⟩ : HandleM) from rfl]
      exact ih _ hsk2 _ (Or.inr rfl)
    · rw [show (if ((⟨1, 0⟩ : HandleM)).index = 0 then (⟨1, 0⟩ : HandleM)
          else ⟨0, 0⟩) = (⟨0, 0⟩ : HandleM) from rfl]
      exact ih _ hsk2 _ (Or.inl rfl)

/-- Claim C10: with a finite acyclic reachable children graph —
expressed by a rank function strictly decreasing along children links of
reachable live nodes — the explicit-stack traversal loop of
`Scene::update` terminates (fuel proportional to the stack weight
suffices); and acyclicity is a genuine precondition, because
`link_nodes` happily creates the cycle of `cyclicScene`, on which the
loop exhausts any amount of fuel. -/
theorem claim_c10_update_termination :
    (∀ (P : Prims) (aspect : ℚ) (s : SceneM) (rank : HandleM → Nat),
      (∀ h nh, ReachLive s s.root h → s.nodes.borrow h = some nh →
        ∀ c ∈ nh.children, rank c < rank h) →
      ∃ fuel, SceneM.update P aspect fuel s ≠ .fuelOut) ∧
    (∀ (P : Prims) (aspect : ℚ) (fuel : Nat),
      SceneM.update P aspect fuel cyclicScene = .fuelOut) := by
  constructor
  · intro P aspect s rank hrank
    refine ⟨stackMeasure (maxChildren s) rank [s.root] + 1, ?_⟩
    exact updLoop_terminates P aspect s rank hrank _ [s.root] s rfl
      (fun h hm => by
        rcases List.mem_singleton.1 hm with rfl
        exact ReachLive.refl s s.root)
      (by omega)
  · intro P aspect fuel
    have hout := cyclic_loop P aspect fuel cyclicScene rfl ⟨0, 0⟩ (Or.inl rfl)
    have hroot : cyclicScene.root = (⟨0, 0⟩ : HandleM) := rfl
    show updLoop P aspect fuel cyclicScene [cyclicScene.root] = .fuelOut
    rw [hroot]
    cases hres : updLoop P aspect fuel cyclicScene [⟨0, 0⟩] with
    | fuelOut => rfl
    | done s2 => rw [hres] at hout; exact LoopOut.noConfusion hout
    | panic => rw [hres] at hout; exact LoopOut.noConfusion hout

/-- Concrete check of the termination half of C10 on the one-child
demo scene with the rank `1 - index`. -/
theorem claim_c10_witness :
    ∃ fuel, SceneM.update trivPrims 1 fuel demoScene1 ≠ .fuelOut := by
  apply claim_c10_update_termination.1 trivPrims 1 demoScene1
    (fun h => 1 - h.index)
  intro h nh hreach hb c hc
  have hocc := PoolM.borrow_eq_some_iff.1 hb
  have hlt : h.index < demoScene1.nodes.slots.length := getElem?_some_lt_length hocc
  have hlen : demoScene1.nodes.slots.length = 2 := rfl
  have hidx : h.index = 0 ∨ h.index = 1 := by omega
  rcases hidx with hidx | hidx
  · have h0 : demoScene1.nodes.slots[0]? =
        some (.occupied 0 { NodeM.new .base with children := [⟨1, 0⟩] }) := rfl
    rw [hidx, h0] at hocc
    injection hocc with hocc1
    injection hocc1 with hg hn
    rw [← hn] at hc
    have hc' : c ∈ [(⟨1, 0⟩ : HandleM)] := hc
    rcases List.mem_singleton.1 hc' with rfl
    show 1 - (1 : Nat) < 1 - h.index
    omega
  · have h1 : demoScene1.nodes.slots[1]? =
        some (.occupied 0 { NodeM.new .base with parent := ⟨0, 0⟩ }) := rfl
    rw [hidx, h1] at hocc
    injection hocc with hocc1
    injection hocc1 with hg hn
    rw [← hn] at hc
    exact absurd hc (List.not_mem_nil c)

end Balala
